import Mathlib

/-!
Verification of the linkifyjs character scanner
(`src/packages/linkifyjs/src/scanner.mjs`).

JavaScript strings are modelled as lists of UTF-16 code units (`Str`), and
the elements produced by `stringToArray` as one- or two-unit slices
(`JChar`).  The character-level finite state machine is modelled as an
arena of state records indexed by `Nat`; building operations of the
missing `fsm.mjs` module are modelled from the spec (section 4.1), while
`stringToArray`, `fastts`, `init` and `run` are translated directly from
`scanner.mjs`.
-/

/-- A JavaScript string: a list of UTF-16 code units. -/
abbrev Str := List Nat

/-- One element of the code-point array produced by `stringToArray`:
a one-unit slice, or a two-unit surrogate-pair slice. -/
abbrev JChar := List Nat

/-- Modelled from the spec: `regexp.mjs` is not under `src/`.  The spec
(section 2) lists the character classes DIGIT, ASCII_LETTER, LETTER
(any Unicode letter), SPACE (non-newline whitespace) and EMOJI. -/
inductive CharClass where
  | DIGIT
  | ASCII_LETTER
  | LETTER
  | SPACE
  | EMOJI
deriving DecidableEq, Repr

/-- `0-9` as a code unit. -/
def isDigitU (u : Nat) : Bool := 48 ≤ u && u ≤ 57

/-- `a-z` as a code unit (the scanner lowercases input before running the
case-insensitive FSM, so the class only needs lowercase letters). -/
def isAsciiLetterU (u : Nat) : Bool := 97 ≤ u && u ≤ 122

/-- Modelled from the spec: LETTER is "any Unicode letter".  A
representative decidable subset of the Unicode letters, restricted to the
BMP: ASCII letters, Latin-1/Latin-extended letters, Greek, Cyrillic and
CJK ranges. -/
def isLetterU (u : Nat) : Bool :=
  isAsciiLetterU u || (65 ≤ u && u ≤ 90) ||
  (0xC0 ≤ u && u ≤ 0xD6) || (0xD8 ≤ u && u ≤ 0xF6) || (0xF8 ≤ u && u ≤ 0x24F) ||
  (0x370 ≤ u && u ≤ 0x3FF) || (0x400 ≤ u && u ≤ 0x4FF) ||
  (0x4E00 ≤ u && u ≤ 0x9FFF)

/-- Modelled from the spec: SPACE is "non-newline whitespace". -/
def isSpaceU (u : Nat) : Bool :=
  u == 9 || u == 11 || u == 12 || u == 32 || u == 0xA0 || u == 0x1680 ||
  (0x2000 ≤ u && u ≤ 0x200A) || u == 0x202F || u == 0x205F || u == 0x3000

/-- Modelled from the spec: single-unit code points with the Emoji
property.  Mirrors the source comment "emoji regex seems to match #":
`#`, `*` and the digits carry the Emoji property, besides the symbol
ranges. -/
def isEmojiU (u : Nat) : Bool :=
  u == 35 || u == 42 || (48 ≤ u && u ≤ 57) ||
  (0x2600 ≤ u && u ≤ 0x27BF) || (0x2B00 ≤ u && u ≤ 0x2BFF)

/-- The code point denoted by a `JChar` (surrogate pairs combined). -/
def jcharCodePoint : JChar → Nat
  | [u] => u
  | [h, l] => 0x10000 + (h - 0xD800) * 0x400 + (l - 0xDC00)
  | _ => 0

/-- Astral code points with the Emoji property (emoji proper live in the
supplementary planes); a representative decidable range. -/
def isEmojiAstral (cp : Nat) : Bool := 0x1F000 ≤ cp && cp ≤ 0x1FAFF

/-- `re.<CLASS>.test(c)` for a one- or two-unit character `c`. -/
def classTest (cc : CharClass) (c : JChar) : Bool :=
  match cc, c with
  | .DIGIT, [u] => isDigitU u
  | .ASCII_LETTER, [u] => isAsciiLetterU u
  | .LETTER, [u] => isLetterU u
  | .SPACE, [u] => isSpaceU u
  | .EMOJI, [u] => isEmojiU u
  | .EMOJI, [_, _] => isEmojiAstral (jcharCodePoint c)
  | _, _ => false

/-- `re.<CLASS>.test(s)` for a whole string `s` (an unanchored regex of a
single character class matches iff some unit matches). -/
def classTestStr (cc : CharClass) (s : Str) : Bool :=
  s.any (fun u => classTest cc [u])

/-- Modelled from the spec: a character-FSM node (`fsm.mjs` `State` is not
under `src/`).  `t` is the accepting token tag (`none` means
non-accepting), `j` the literal edges (code unit to state index), `jr`
the ordered class edges (a `none` target captures the character and stops
the scan, preventing any later class or default jump, as in the
`wordjr`/`uwordjr` tables of `scanner.mjs`), and `jd` the default edge
(set only on the start state). -/
structure StateData where
  t : Option String := none
  j : List (Nat × Nat) := []
  jr : List (CharClass × Option Nat) := []
  jd : Option Nat := none
deriving DecidableEq, Repr

instance : Inhabited StateData := ⟨{}⟩

/-- The FSM arena plus the token-group collections (`State.groups`). -/
structure Fsm where
  states : List StateData
  groups : List (String × List String)
deriving DecidableEq, Repr

def Fsm.getState (f : Fsm) (sid : Nat) : StateData := f.states.getD sid default

/-- Replace the state record at index `sid`. -/
def Fsm.setState (f : Fsm) (sid : Nat) (st : StateData) : Fsm :=
  { f with states := f.states.set sid st }

/-- Append a fresh state with tag `t`; returns its index. -/
def newState (f : Fsm) (t : Option String) : Fsm × Nat :=
  ({ f with states := f.states ++ [{ t := t }] }, f.states.length)

/-- Insert-or-overwrite a literal edge (JS `state.j[ch] = next`). -/
def setLit (f : Fsm) (sid : Nat) (ch : Nat) (tgt : Nat) : Fsm :=
  let st := f.getState sid
  let j := if st.j.any (fun p => p.1 == ch)
    then st.j.map (fun p => if p.1 == ch then (ch, tgt) else p)
    else st.j ++ [(ch, tgt)]
  f.setState sid { st with j := j }

/-- Push a class edge (JS `state.jr.push([regexp, next])`). -/
def pushJr (f : Fsm) (sid : Nat) (cc : CharClass) (tgt : Option Nat) : Fsm :=
  let st := f.getState sid
  f.setState sid { st with jr := st.jr ++ [(cc, tgt)] }

/-- Replace a state's class-edge table (`next.jr = jr.slice()`). -/
def setJr (f : Fsm) (sid : Nat) (jr : List (CharClass × Option Nat)) : Fsm :=
  let st := f.getState sid
  f.setState sid { st with jr := jr }

/-- Set the default edge (`Start.jd = new State(tk.SYM)`). -/
def setJd (f : Fsm) (sid : Nat) (tgt : Nat) : Fsm :=
  let st := f.getState sid
  f.setState sid { st with jd := some tgt }

/-- Modelled from the spec: `addToGroups(token, flags, groups)` of
`fsm.mjs` records the token tag in the collection of every flag. -/
def addToGroups (f : Fsm) (tok : String) (flags : List String) : Fsm :=
  flags.foldl
    (fun f g =>
      if f.groups.any (fun p => p.1 == g) then
        let gs := f.groups.map (fun p => if p.1 == g then (p.1, p.2 ++ [tok]) else p)
        { f with groups := gs }
      else
        { f with groups := f.groups ++ [(g, [tok])] })
    f

/-- The `next` argument of the `tt`/`tr`/`ts` transition helpers: a token
tag with group flags, an existing state, or absent. -/
inductive NextSpec where
  | tok (t : String) (flags : List String)
  | st (sid : Nat)
  | nil

/-- Create the target state for a transition helper: a fresh accepting
state registered in the groups, an existing state, or a fresh
non-accepting state. -/
def mkNext (f : Fsm) (next : NextSpec) : Fsm × Nat :=
  match next with
  | .st sid => (f, sid)
  | .tok t flags =>
      let (f, sid) := newState f (some t)
      (addToGroups f t flags, sid)
  | .nil => newState f none

/-- Modelled from the spec: `tt` ("take transition") of `fsm.mjs` adds a
literal edge; an absent target creates a fresh non-accepting node. -/
def tt (f : Fsm) (src : Nat) (ch : Nat) (next : NextSpec) : Fsm × Nat :=
  let (f, sid) := mkNext f next
  (setLit f src ch sid, sid)

/-- Modelled from the spec: `tr` of `fsm.mjs` adds a class edge; with an
absent target it pushes an empty target that blocks the scan on a match
("might be empty to prevent default jump").  The returned index is
meaningless in that case (the source returns no usable state either). -/
def tr (f : Fsm) (src : Nat) (cc : CharClass) (next : NextSpec) : Fsm × Nat :=
  match next with
  | .nil => (pushJr f src cc none, 0)
  | _ =>
      let (f, sid) := mkNext f next
      (pushJr f src cc (some sid), sid)

/-- Look up a literal edge. -/
def lookupLit (f : Fsm) (sid : Nat) (u : Nat) : Option Nat :=
  ((f.getState sid).j.find? (fun p => p.1 == u)).map (·.2)

/-- Modelled from the spec: second phase of `ts` of `fsm.mjs` once a
missing edge is hit — every remaining character gets a fresh
non-accepting intermediate node, and the last character takes a `tt`
transition. -/
def tsFresh (f : Fsm) (sid : Nat) (word : Str) (next : NextSpec) : Fsm × Nat :=
  match word with
  | [] => (f, sid)
  | [u] => tt f sid u next
  | u :: rest =>
      let (f, n) := newState f none
      let f := setLit f sid u n
      tsFresh f n rest next

/-- Modelled from the spec: `ts` ("take transitions") of `fsm.mjs` walks
existing literal edges as far as they go; if the whole word already has a
path the existing final state is returned unchanged, otherwise the
remaining suffix is added with fresh states. -/
def ts (f : Fsm) (sid : Nat) (word : Str) (next : NextSpec) : Fsm × Nat :=
  match word with
  | [] => (f, sid)
  | u :: rest =>
      match lookupLit f sid u with
      | some n => ts f n rest next
      | none => tsFresh f sid (u :: rest) next

/-- `state.accepts()`: the state has a token tag. -/
def acceptsB (f : Fsm) (sid : Nat) : Bool := (f.getState sid).t.isSome

/-- The token tag of a state, defaulting to the empty string. -/
def tagOfD (f : Fsm) (sid : Nat) : String := ((f.getState sid).t).getD ""

/-- Literal-edge lookup for the character `c` (`state.j[input]`): every
registered key is a single code unit, so only one-unit characters can
match. -/
def litLookup : List (Nat × Nat) → JChar → Option Nat
  | [], _ => none
  | (key, tgt) :: rest, c => if c = [key] then some tgt else litLookup rest c

/-- First class edge whose class matches `c`, tried in insertion order;
`some none` means a blocking edge matched. -/
def findJr : List (CharClass × Option Nat) → JChar → Option (Option Nat)
  | [], _ => none
  | (cls, tgt) :: rest, c => if classTest cls c then some tgt else findJr rest c

/-- Modelled from the spec: `state.go(input)` of `fsm.mjs`.  Resolution
order: literal edge, then class edges in insertion order (a matching
blocking edge returns nothing), then the default edge. -/
def go (f : Fsm) (sid : Nat) (c : JChar) : Option Nat :=
  match litLookup (f.getState sid).j c with
  | some n => some n
  | none =>
      match findJr (f.getState sid).jr c with
      | some tgt => tgt
      | none => (f.getState sid).jd

/-- `str.replace(/[A-Z]/g, c => c.toLowerCase())` on one unit. -/
def lowerUnit (u : Nat) : Nat := if 65 ≤ u ∧ u ≤ 90 then u + 32 else u

/-- Selective ASCII lowercasing applied by `run` before scanning. -/
def lowerAscii (s : Str) : Str := s.map lowerUnit

/-- ASCII uppercasing, used to state the case-insensitivity property. -/
def upperUnit (u : Nat) : Nat := if 97 ≤ u ∧ u ≤ 122 then u - 32 else u

def upperAscii (s : Str) : Str := s.map upperUnit

/-- `stringToArray` from `scanner.mjs`: split a string into one-unit
slices, keeping a high surrogate immediately followed by a low surrogate
together as a two-unit slice. -/
def stringToArray : Str → List JChar
  | [] => []
  | [u] => [[u]]
  | u :: v :: rest =>
      if 0xD800 ≤ u ∧ u ≤ 0xDBFF ∧ 0xDC00 ≤ v ∧ v ≤ 0xDFFF then
        [u, v] :: stringToArray rest
      else
        [u] :: stringToArray (v :: rest)

/-- `str.slice(a, b)` for `0 ≤ a ≤ b`. -/
def strSlice (s : Str) (a b : Nat) : Str := (s.take b).drop a

/-- Total number of code units covered by a list of characters. -/
def unitLen (l : List JChar) : Nat := (l.map List.length).sum

/-- A scanner output token (`{t, v, s, e}` in `scanner.mjs`). -/
structure Tok where
  t : String
  v : Str
  s : Nat
  e : Nat
deriving DecidableEq, Repr

/-- The mutable locals of the inner matching loop of `run`:
`latestAccepting`, `sinceAccepts`, `charsSinceAccepts` (where `none`
models the JS sentinel `-1`), and the totals consumed by the loop
(`tokenLength` and the two cursor advances share `consumedUnits` and
`consumedChars`). -/
structure InnerAcc where
  latest : Option Nat
  sinceAccepts : Option Nat
  charsSinceAccepts : Option Nat
  consumedUnits : Nat
  consumedChars : Nat
deriving DecidableEq, Repr

/-- The inner loop of `run`: advance while `state.go` succeeds, recording
the latest accepting state and the units/characters consumed since it was
entered. -/
def innerLoop (f : Fsm) (sid : Nat) (rest : List JChar) (acc : InnerAcc) : InnerAcc :=
  match rest with
  | [] => acc
  | c :: rest' =>
      match go f sid c with
      | none => acc
      | some st' =>
          let acc' : InnerAcc :=
            if acceptsB f st' then
              ⟨some st', some 0, some 0,
               acc.consumedUnits + c.length, acc.consumedChars + 1⟩
            else
              match acc.sinceAccepts, acc.charsSinceAccepts with
              | some sa, some ca =>
                  ⟨acc.latest, some (sa + c.length), some (ca + 1),
                   acc.consumedUnits + c.length, acc.consumedChars + 1⟩
              | _, _ =>
                  ⟨acc.latest, acc.sinceAccepts, acc.charsSinceAccepts,
                   acc.consumedUnits + c.length, acc.consumedChars + 1⟩
          innerLoop f st' rest' acc'

/-- The outer tokenization loop of `run`.  `fuel` bounds the number of
iterations (each iteration of the source loop consumes at least one
character whenever it makes progress); the `none` result models the
TypeError the source would raise when no accepting state was ever
reached (`latestAccepting.t` with `latestAccepting === null`), or fuel
exhaustion. -/
def runAux (f : Fsm) (start : Nat) (str : Str) (it : List JChar) :
    Nat → Nat → Nat → List Tok → Option (List Tok)
  | 0, _, _, _ => none
  | fuel + 1, cursor, cc, toks =>
      if cc < it.length then
        let res := innerLoop f start (it.drop cc) ⟨none, none, none, 0, 0⟩
        match res.latest, res.sinceAccepts, res.charsSinceAccepts with
        | some la, some sa, some ca =>
            let cursor' := cursor + res.consumedUnits - sa
            let cc' := cc + res.consumedChars - ca
            let tokenLength := res.consumedUnits - sa
            runAux f start str it fuel cursor' cc'
              (toks ++ [⟨tagOfD f la, strSlice str (cursor' - tokenLength) cursor',
                         cursor' - tokenLength, cursor'⟩])
        | _, _, _ => none
      else some toks

/-- `run(start, str)` from `scanner.mjs`. -/
def run (f : Fsm) (start : Nat) (str : Str) : Option (List Tok) :=
  let it := stringToArray (lowerAscii str)
  runAux f start str it (it.length + 1) 0 0 []

/-- Length of the maximal `go`-path from `sid` over `rest`. -/
def pathSteps (f : Fsm) (sid : Nat) : List JChar → Nat
  | [] => 0
  | c :: rest =>
      match go f sid c with
      | none => 0
      | some st' => pathSteps f st' rest + 1

/-- Greedy longest-match with accepting-state rollback, stated
recursively: the number of characters kept and the last accepting state
along the maximal `go`-path, if any accepting state is reached. -/
def scanSpec (f : Fsm) (sid : Nat) : List JChar → Option (Nat × Nat)
  | [] => none
  | c :: rest =>
      match go f sid c with
      | none => none
      | some st' =>
          match scanSpec f st' rest with
          | some (k, la) => some (k + 1, la)
          | none => if acceptsB f st' then some (1, st') else none

/-- Follow literal edges only, spelling out a word. -/
def literalPath (f : Fsm) (sid : Nat) : Str → Option Nat
  | [] => some sid
  | u :: rest =>
      match lookupLit f sid u with
      | some n => literalPath f n rest
      | none => none

/-- `fastts` from `scanner.mjs`: add a linear chain for a literal word,
reusing existing literal edges for all but the last character; fresh
intermediate states accept `defaultt` and carry a copy of the side
transitions `jr`; the final state accepts `t` (its edge overwrites any
existing one). -/
def fastts (f : Fsm) (sid : Nat) (input : Str) (t : String) (defaultt : String)
    (jr : List (CharClass × Option Nat)) : Fsm × Nat :=
  match input with
  | [] => (f, sid)
  | [u] =>
      let (f, n) := newState f (some t)
      let f := setJr f n jr
      (setLit f sid u n, n)
  | u :: rest =>
      match lookupLit f sid u with
      | some n => fastts f n rest t defaultt jr
      | none =>
          let (f, n) := newState f (some defaultt)
          let f := setJr f n jr
          let f := setLit f sid u n
          fastts f n rest t defaultt jr

/-- A Lean string of BMP characters as a list of UTF-16 code units. -/
def encodeStr (s : String) : Str := s.data.map Char.toNat

/-- JavaScript string comparison `a < b` (lexicographic on code units). -/
def lexLt : Str → Str → Bool
  | _, [] => false
  | [], _ :: _ => true
  | a :: as, b :: bs => if a < b then true else if b < a then false else lexLt as bs

/-- Insert a custom-scheme entry into a list sorted by scheme name. -/
def sinsert (x : String × Bool) : List (String × Bool) → List (String × Bool)
  | [] => [x]
  | y :: ys =>
      if lexLt (encodeStr y.1) (encodeStr x.1) then y :: sinsert x ys
      else x :: y :: ys

/-- `customSchemes.sort((a, b) => (a[0] > b[0] ? 1 : -1))`: sorting by
scheme name (the JS comparator is consistent on distinct names, so any
sorting algorithm produces the same list; insertion sort here). -/
def schemeSort : List (String × Bool) → List (String × Bool)
  | [] => []
  | x :: xs => sinsert x (schemeSort xs)

/-- The `flags` object computed for a custom scheme by `init` (lines
186–195 of `scanner.mjs`): the base flag from `optionalSlashSlash`, then
exactly one shape flag. -/
def schemeFlags (sch : Str) (optionalSlashSlash : Bool) : List String :=
  let base := if optionalSlashSlash then ["scheme"] else ["slashscheme"]
  if sch.contains 45 then base ++ ["domain"]
  else if !classTestStr .ASCII_LETTER sch then base ++ ["numeric"]
  else if classTestStr .DIGIT sch then base ++ ["asciinumeric"]
  else base ++ ["ascii"]

/-- `init(customSchemes)` from `scanner.mjs`, parameterized over the
decoded TLD tables (the encoded tables of `tlds.mjs` are not under
`src/`).  State `0` is the start state. -/
def init (tlds utlds : List Str) (customSchemes : List (String × Bool)) : Fsm :=
  let f : Fsm := ⟨[], []⟩
  let (f, start) := newState f none
  let (f, _) := tt f start 39 (.tok "APOSTROPHE" [])
  let (f, _) := tt f start 123 (.tok "OPENBRACE" [])
  let (f, _) := tt f start 125 (.tok "CLOSEBRACE" [])
  let (f, _) := tt f start 91 (.tok "OPENBRACKET" [])
  let (f, _) := tt f start 93 (.tok "CLOSEBRACKET" [])
  let (f, _) := tt f start 40 (.tok "OPENPAREN" [])
  let (f, _) := tt f start 41 (.tok "CLOSEPAREN" [])
  let (f, _) := tt f start 60 (.tok "OPENANGLEBRACKET" [])
  let (f, _) := tt f start 62 (.tok "CLOSEANGLEBRACKET" [])
  let (f, _) := tt f start 0xFF08 (.tok "FULLWIDTHLEFTPAREN" [])
  let (f, _) := tt f start 0xFF09 (.tok "FULLWIDTHRIGHTPAREN" [])
  let (f, _) := tt f start 0x300C (.tok "LEFTCORNERBRACKET" [])
  let (f, _) := tt f start 0x300D (.tok "RIGHTCORNERBRACKET" [])
  let (f, _) := tt f start 0x300E (.tok "LEFTWHITECORNERBRACKET" [])
  let (f, _) := tt f start 0x300F (.tok "RIGHTWHITECORNERBRACKET" [])
  let (f, _) := tt f start 0xFF1C (.tok "FULLWIDTHLESSTHAN" [])
  let (f, _) := tt f start 0xFF1E (.tok "FULLWIDTHGREATERTHAN" [])
  let (f, _) := tt f start 38 (.tok "AMPERSAND" [])
  let (f, _) := tt f start 42 (.tok "ASTERISK" [])
  let (f, _) := tt f start 64 (.tok "AT" [])
  let (f, _) := tt f start 96 (.tok "BACKTICK" [])
  let (f, _) := tt f start 94 (.tok "CARET" [])
  let (f, _) := tt f start 58 (.tok "COLON" [])
  let (f, _) := tt f start 44 (.tok "COMMA" [])
  let (f, _) := tt f start 36 (.tok "DOLLAR" [])
  let (f, _) := tt f start 46 (.tok "DOT" [])
  let (f, _) := tt f start 61 (.tok "EQUALS" [])
  let (f, _) := tt f start 33 (.tok "EXCLAMATION" [])
  let (f, _) := tt f start 45 (.tok "HYPHEN" [])
  let (f, _) := tt f start 37 (.tok "PERCENT" [])
  let (f, _) := tt f start 124 (.tok "PIPE" [])
  let (f, _) := tt f start 43 (.tok "PLUS" [])
  let (f, _) := tt f start 35 (.tok "POUND" [])
  let (f, _) := tt f start 63 (.tok "QUERY" [])
  let (f, _) := tt f start 34 (.tok "QUOTE" [])
  let (f, _) := tt f start 47 (.tok "SLASH" [])
  let (f, _) := tt f start 59 (.tok "SEMI" [])
  let (f, _) := tt f start 126 (.tok "TILDE" [])
  let (f, _) := tt f start 95 (.tok "UNDERSCORE" [])
  let (f, _) := tt f start 92 (.tok "BACKSLASH" [])
  let (f, _) := tt f start 0x30FB (.tok "FULLWIDTHMIDDLEDOT" [])
  let (f, num) := tr f start .DIGIT (.tok "NUM" ["numeric"])
  let (f, _) := tr f num .DIGIT (.st num)
  let (f, asciinumeric) := tr f num .ASCII_LETTER (.tok "ASCIINUMERICAL" ["asciinumeric"])
  let (f, alphanumeric) := tr f num .LETTER (.tok "ALPHANUMERICAL" ["alphanumeric"])
  let (f, word) := tr f start .ASCII_LETTER (.tok "WORD" ["ascii"])
  let (f, _) := tr f word .DIGIT (.st asciinumeric)
  let (f, _) := tr f word .ASCII_LETTER (.st word)
  let (f, _) := tr f asciinumeric .DIGIT (.st asciinumeric)
  let (f, _) := tr f asciinumeric .ASCII_LETTER (.st asciinumeric)
  let (f, uword) := tr f start .LETTER (.tok "UWORD" ["alpha"])
  let (f, _) := tr f uword .ASCII_LETTER .nil
  let (f, _) := tr f uword .DIGIT (.st alphanumeric)
  let (f, _) := tr f uword .LETTER (.st uword)
  let (f, _) := tr f alphanumeric .DIGIT (.st alphanumeric)
  let (f, _) := tr f alphanumeric .ASCII_LETTER .nil
  let (f, _) := tr f alphanumeric .LETTER (.st alphanumeric)
  let (f, nl) := tt f start 10 (.tok "NL" ["whitespace"])
  let (f, cr) := tt f start 13 (.tok "WS" ["whitespace"])
  let (f, ws) := tr f start .SPACE (.tok "WS" ["whitespace"])
  let (f, _) := tt f start 0xFFFC (.st ws)
  let (f, _) := tt f cr 10 (.st nl)
  let (f, _) := tt f cr 0xFFFC (.st ws)
  let (f, _) := tr f cr .SPACE (.st ws)
  let (f, _) := tt f ws 13 .nil
  let (f, _) := tt f ws 10 .nil
  let (f, _) := tr f ws .SPACE (.st ws)
  let (f, _) := tt f ws 0xFFFC (.st ws)
  let (f, emoji) := tr f start .EMOJI (.tok "EMOJI" ["emoji"])
  let (f, _) := tt f emoji 35 .nil
  let (f, _) := tr f emoji .EMOJI (.st emoji)
  let (f, _) := tt f emoji 0xFE0F (.st emoji)
  let (f, emojiJoiner) := tt f emoji 0x200D .nil
  let (f, _) := tt f emojiJoiner 35 .nil
  let (f, _) := tr f emojiJoiner .EMOJI (.st emoji)
  let wordjr : List (CharClass × Option Nat) :=
    [(.ASCII_LETTER, some word), (.DIGIT, some asciinumeric)]
  let uwordjr : List (CharClass × Option Nat) :=
    [(.ASCII_LETTER, none), (.LETTER, some uword), (.DIGIT, some alphanumeric)]
  let f := tlds.foldl (fun f w => (fastts f start w "TLD" "WORD" wordjr).1) f
  let f := utlds.foldl (fun f w => (fastts f start w "UTLD" "UWORD" uwordjr).1) f
  let f := addToGroups f "TLD" ["tld", "ascii"]
  let f := addToGroups f "UTLD" ["utld", "alpha"]
  let f := (fastts f start (encodeStr "file") "SCHEME" "WORD" wordjr).1
  let f := (fastts f start (encodeStr "mailto") "SCHEME" "WORD" wordjr).1
  let f := (fastts f start (encodeStr "http") "SLASH_SCHEME" "WORD" wordjr).1
  let f := (fastts f start (encodeStr "https") "SLASH_SCHEME" "WORD" wordjr).1
  let f := (fastts f start (encodeStr "ftp") "SLASH_SCHEME" "WORD" wordjr).1
  let f := (fastts f start (encodeStr "ftps") "SLASH_SCHEME" "WORD" wordjr).1
  let f := addToGroups f "SCHEME" ["scheme", "ascii"]
  let f := addToGroups f "SLASH_SCHEME" ["slashscheme", "ascii"]
  let sortedSchemes := schemeSort customSchemes
  let f := sortedSchemes.foldl
    (fun f p => (ts f start (encodeStr p.1) (.tok p.1 (schemeFlags (encodeStr p.1) p.2))).1) f
  let (f, _) := ts f start (encodeStr "localhost") (.tok "LOCALHOST" ["ascii"])
  let (f, sym) := newState f (some "SYM")
  let f := setJd f start sym
  f

/-- Modelled from the spec: the TLD table (`tlds.mjs`) is not under
`src/`.  A representative alphabetical subset of the real TLD list:
`co`, `com`, `fi`, `fit` are real TLDs (the spec's scenarios use `a.co`
and `example.com`) exercising the prefix-sharing of the chains, and `la`
gives `localhost` its first edge just as the full table does. -/
def tlds0 : List Str :=
  [encodeStr "co", encodeStr "com", encodeStr "fi", encodeStr "fit",
   encodeStr "la", encodeStr "org", encodeStr "uk"]

/-- Modelled from the spec: the IDN TLD table (`ελ` is a real IDN TLD). -/
def utlds0 : List Str := [encodeStr "ελ"]

/-- The scanner state machine built by `init` with no custom schemes. -/
def fsm0 : Fsm := init tlds0 utlds0 []

def startId : Nat := 0
def symStateId : Nat := ((fsm0.getState startId).jd).getD 0
def numStateId : Nat := (go fsm0 startId [48]).getD 0
def wordStateId : Nat := (go fsm0 startId [97]).getD 0
def asciinumericStateId : Nat := (go fsm0 wordStateId [48]).getD 0
def alphanumericStateId : Nat := (go fsm0 numStateId [0x3B5]).getD 0
def emojiStateId : Nat := (go fsm0 startId [0x2764]).getD 0
def emojiJoinerStateId : Nat := (go fsm0 emojiStateId [0x200D]).getD 0
def poundStateId : Nat := (go fsm0 startId [35]).getD 0
def hashFromEmojiId : Nat := (go fsm0 emojiStateId [35]).getD 0
def hashFromJoinerId : Nat := (go fsm0 emojiJoinerStateId [35]).getD 0
def nlStateId : Nat := (go fsm0 startId [10]).getD 0
def crStateId : Nat := (go fsm0 startId [13]).getD 0

/-- The flag set asserted by claim C5, written following the claim's own
words (to compare against `schemeFlags`, which is translated from the
source). -/
def claimSchemeFlags (sch : Str) (optionalSlashSlash : Bool) : List String :=
  let shape :=
    if sch.contains 45 then "domain"
    else if sch.all (fun u => !isAsciiLetterU u) then "numeric"
    else if sch.any (fun u => isDigitU u) then "asciinumeric"
    else "ascii"
  [if optionalSlashSlash then "scheme" else "slashscheme", shape]

/-- Custom schemes exercising every shape flag (deliberately unsorted). -/
def demoSchemes : List (String × Bool) :=
  [("steam", true), ("a-b", false), ("42", true), ("s3", false)]

def fsmDemo : Fsm := init tlds0 utlds0 demoSchemes

/-- All group names whose collection contains the tag. -/
def tagGroups (f : Fsm) (tag : String) : List String :=
  (f.groups.filter (fun p => p.2.contains tag)).map (·.1)

/-- `n` repetitions of CR LF. -/
def crlfs : Nat → Str
  | 0 => []
  | n + 1 => 13 :: 10 :: crlfs n

/-- The NL token covering the `p`-th CR LF pair. -/
def nlTok (p : Nat) : Tok := ⟨"NL", [13, 10], 2 * p, 2 * p + 2⟩

/-- Token spans chain from `a` to `b`: the first token starts at `a`,
each token starts where the previous one ended, the last ends at `b`. -/
def spansFrom : Nat → List Tok → Nat → Prop
  | a, [], b => a = b
  | a, tok :: rest, b => tok.s = a ∧ spansFrom tok.e rest b

/-- Concatenation of the token values. -/
def concatV (toks : List Tok) : Str := (toks.map Tok.v).flatten

/-- Same tag and same span (values may come from different originals). -/
def shapeEq (a b : Tok) : Prop := a.t = b.t ∧ a.s = b.s ∧ a.e = b.e

/-- The tokens `runAux` appends from cursor position `(cc, cursor)` on:
each is produced by a greedy longest-match from the start state. -/
inductive TokChain (f : Fsm) (start : Nat) (str : Str) (it : List JChar) :
    Nat → Nat → List Tok → Prop
  | nil {cc cursor : Nat} (h : ¬ cc < it.length) : TokChain f start str it cc cursor []
  | cons {cc cursor k la : Nat} {toks : List Tok}
      (hcc : cc < it.length)
      (hscan : scanSpec f start (it.drop cc) = some (k, la))
      (hrest : TokChain f start str it (cc + k) (cursor + unitLen ((it.drop cc).take k)) toks) :
      TokChain f start str it cc cursor
        (⟨tagOfD f la, strSlice str cursor (cursor + unitLen ((it.drop cc).take k)), cursor,
          cursor + unitLen ((it.drop cc).take k)⟩ :: toks)

/-- Every literal, class and default target of the state exists and
accepts (true of the start state of the built scanner). -/
def startSafe (f : Fsm) (sid : Nat) : Bool :=
  ((f.getState sid).j.all (fun p => acceptsB f p.2)) &&
  ((f.getState sid).jr.all (fun p =>
    match p.2 with | some n => acceptsB f n | none => false)) &&
  (match (f.getState sid).jd with | some n => acceptsB f n | none => false)

/-- A character produced by `stringToArray`: a single unit, or a high
surrogate followed by a low surrogate. -/
def goodChar (c : JChar) : Prop :=
  (∃ u, c = [u]) ∨
  (∃ h l, c = [h, l] ∧ 0xD800 ≤ h ∧ h ≤ 0xDBFF ∧ 0xDC00 ≤ l ∧ l ≤ 0xDFFF)

theorem unitLen_nil : unitLen [] = 0 := rfl

theorem unitLen_cons (c : JChar) (l : List JChar) :
    unitLen (c :: l) = c.length + unitLen l := by
  simp [unitLen]

theorem unitLen_append (l₁ l₂ : List JChar) :
    unitLen (l₁ ++ l₂) = unitLen l₁ + unitLen l₂ := by
  simp [unitLen]

theorem unitLen_eq_flatten_length (l : List JChar) : unitLen l = l.flatten.length := by
  rw [unitLen, List.length_flatten]

theorem unitLen_take_le (l : List JChar) (k : Nat) : unitLen (l.take k) ≤ unitLen l := by
  conv_rhs => rw [← List.take_append_drop k l]
  rw [unitLen_append]
  omega

theorem strSlice_map (g : Nat → Nat) (s : Str) (a b : Nat) :
    (strSlice s a b).map g = strSlice (s.map g) a b := by
  rw [strSlice, strSlice, List.map_drop, List.map_take]

theorem strSlice_nil_of_le (s : Str) (a b : Nat) (h : s.length ≤ a) :
    strSlice s a b = [] := by
  rw [strSlice]
  exact List.drop_eq_nil_of_le (le_trans (by rw [List.length_take]; omega) h)

theorem strSlice_append (s : Str) (a b c : Nat) (hab : a ≤ b) (hbc : b ≤ c) :
    strSlice s a b ++ strSlice s b c = strSlice s a c := by
  unfold strSlice
  have h1 : List.take b s = List.take b (List.take c s) := by
    rw [List.take_take, Nat.min_eq_left hbc]
  rw [h1]
  rcases le_or_lt b (List.take c s).length with hb | hb
  · conv_rhs => rw [← List.take_append_drop b (List.take c s)]
    rw [List.drop_append_eq_append_drop]
    have hl : (List.take b (List.take c s)).length = b := by
      rw [List.length_take]; omega
    rw [hl, Nat.sub_eq_zero_of_le hab, List.drop_zero]
  · have h2 : List.take b (List.take c s) = List.take c s :=
      List.take_of_length_le (by omega)
    have h3 : List.drop b (List.take c s) = [] :=
      List.drop_eq_nil_of_le (by omega)
    rw [h2, h3, List.append_nil]

theorem strSlice_zero_length (s : Str) : strSlice s 0 s.length = s := by
  rw [strSlice, List.take_length, List.drop_zero]

theorem stringToArray_flatten (s : Str) : (stringToArray s).flatten = s := by
  induction s using stringToArray.induct with
  | case1 => rfl
  | case2 u => rfl
  | case3 u v rest h ih =>
      rw [stringToArray, if_pos h]
      simp [ih]
  | case4 u v rest h ih =>
      rw [stringToArray, if_neg h]
      simp [ih]

theorem stringToArray_good (s : Str) : ∀ c ∈ stringToArray s, goodChar c := by
  induction s using stringToArray.induct with
  | case1 => intro c hc; cases hc
  | case2 u =>
      intro c hc
      rw [stringToArray] at hc
      rw [List.mem_singleton] at hc
      exact Or.inl ⟨u, hc⟩
  | case3 u v rest h ih =>
      intro c hc
      rw [stringToArray, if_pos h] at hc
      rcases List.mem_cons.mp hc with rfl | hc
      · exact Or.inr ⟨u, v, rfl, h.1, h.2.1, h.2.2.1, h.2.2.2⟩
      · exact ih c hc
  | case4 u v rest h ih =>
      intro c hc
      rw [stringToArray, if_neg h] at hc
      rcases List.mem_cons.mp hc with rfl | hc
      · exact Or.inl ⟨u, rfl⟩
      · exact ih c hc

theorem goodChar_length_pos (c : JChar) (h : goodChar c) : 1 ≤ c.length := by
  rcases h with ⟨u, rfl⟩ | ⟨h, l, rfl, _⟩ <;> simp

theorem goodChar_mem_hash (c : JChar) (h : goodChar c) (hm : (35 : Nat) ∈ c) :
    c = [35] := by
  rcases h with ⟨u, rfl⟩ | ⟨a, b, rfl, ha1, ha2, hb1, hb2⟩
  · rw [List.mem_singleton] at hm
    rw [hm]
  · rcases List.mem_cons.mp hm with h35 | hm
    · omega
    · rw [List.mem_singleton] at hm
      omega

theorem lowerAscii_length (s : Str) : (lowerAscii s).length = s.length := by
  rw [lowerAscii, List.length_map]

theorem lowerUnit_upperUnit (u : Nat) : lowerUnit (upperUnit u) = lowerUnit u := by
  rw [lowerUnit, upperUnit, lowerUnit]
  split_ifs <;> omega

theorem lowerAscii_upperAscii (s : Str) : lowerAscii (upperAscii s) = lowerAscii s := by
  rw [lowerAscii, upperAscii, lowerAscii, List.map_map]
  exact List.map_congr_left (fun u _ => lowerUnit_upperUnit u)

theorem upperAscii_length (s : Str) : (upperAscii s).length = s.length := by
  rw [upperAscii, List.length_map]

theorem litLookup_mem (j : List (Nat × Nat)) (c : JChar) (n : Nat)
    (h : litLookup j c = some n) : ∃ key, (key, n) ∈ j := by
  induction j with
  | nil => cases h
  | cons p rest ih =>
      obtain ⟨key, tgt⟩ := p
      rw [litLookup] at h
      by_cases hc : c = [key]
      · rw [if_pos hc] at h
        injection h with h'
        exact ⟨key, by rw [h']; exact List.mem_cons_self _ _⟩
      · rw [if_neg hc] at h
        obtain ⟨key', hmem⟩ := ih h
        exact ⟨key', List.mem_cons_of_mem _ hmem⟩

theorem findJr_mem (jr : List (CharClass × Option Nat)) (c : JChar) (tgt : Option Nat)
    (h : findJr jr c = some tgt) : ∃ cls, (cls, tgt) ∈ jr := by
  induction jr with
  | nil => cases h
  | cons p rest ih =>
      obtain ⟨cls, tgt'⟩ := p
      rw [findJr] at h
      by_cases hc : classTest cls c = true
      · rw [if_pos hc] at h
        injection h with h'
        exact ⟨cls, by rw [h']; exact List.mem_cons_self _ _⟩
      · rw [if_neg hc] at h
        obtain ⟨cls', hmem⟩ := ih h
        exact ⟨cls', List.mem_cons_of_mem _ hmem⟩

theorem go_eq_none (f : Fsm) (sid : Nat) (c : JChar)
    (hj : (f.getState sid).j = []) (hjr : (f.getState sid).jr = [])
    (hjd : (f.getState sid).jd = none) : go f sid c = none := by
  rw [go, hj, hjr, hjd]
  rfl

theorem getState_oob (f : Fsm) (sid : Nat) (h : f.states.length ≤ sid) :
    f.getState sid = default := by
  rw [Fsm.getState, List.getD_eq_getElem?_getD, List.getElem?_eq_none h]
  rfl

theorem go_oob (f : Fsm) (sid : Nat) (c : JChar) (h : f.states.length ≤ sid) :
    go f sid c = none := by
  have hd := getState_oob f sid h
  exact go_eq_none f sid c (by rw [hd]; rfl) (by rw [hd]; rfl) (by rw [hd]; rfl)

theorem scanSpec_none_of_go_none (f : Fsm) (sid : Nat)
    (h : ∀ c, go f sid c = none) (rest : List JChar) :
    scanSpec f sid rest = none := by
  cases rest with
  | nil => rfl
  | cons c r => rw [scanSpec, h c]

theorem scanSpec_bounds (f : Fsm) :
    ∀ (rest : List JChar) (sid k la : Nat),
    scanSpec f sid rest = some (k, la) → 1 ≤ k ∧ k ≤ rest.length := by
  intro rest
  induction rest with
  | nil => intro sid k la h; cases h
  | cons c r ih =>
      intro sid k la h
      cases hgo : go f sid c with
      | none => simp only [scanSpec, hgo] at h; cases h
      | some st' =>
          simp only [scanSpec, hgo] at h
          cases htail : scanSpec f st' r with
          | some p =>
              obtain ⟨k', la'⟩ := p
              simp only [htail, Option.some.injEq, Prod.mk.injEq] at h
              obtain ⟨rfl, rfl⟩ := h
              have := ih st' k' la' htail
              simp only [List.length_cons]
              omega
          | none =>
              simp only [htail] at h
              by_cases hacc : acceptsB f st' = true
              · rw [if_pos hacc] at h
                simp only [Option.some.injEq, Prod.mk.injEq] at h
                obtain ⟨rfl, rfl⟩ := h
                simp only [List.length_cons]
                omega
              · rw [if_neg hacc] at h; cases h

theorem scanSpec_accepts (f : Fsm) :
    ∀ (rest : List JChar) (sid k la : Nat),
    scanSpec f sid rest = some (k, la) → acceptsB f la = true := by
  intro rest
  induction rest with
  | nil => intro sid k la h; cases h
  | cons c r ih =>
      intro sid k la h
      cases hgo : go f sid c with
      | none => simp only [scanSpec, hgo] at h; cases h
      | some st' =>
          simp only [scanSpec, hgo] at h
          cases htail : scanSpec f st' r with
          | some p =>
              obtain ⟨k', la'⟩ := p
              simp only [htail, Option.some.injEq, Prod.mk.injEq] at h
              obtain ⟨rfl, rfl⟩ := h
              exact ih st' k' la' htail
          | none =>
              simp only [htail] at h
              by_cases hacc : acceptsB f st' = true
              · rw [if_pos hacc] at h
                simp only [Option.some.injEq, Prod.mk.injEq] at h
                obtain ⟨rfl, rfl⟩ := h
                exact hacc
              · rw [if_neg hacc] at h; cases h

theorem startSafe_go (f : Fsm) (s : Nat) (h : startSafe f s = true) (c : JChar) :
    ∃ st', go f s c = some st' ∧ acceptsB f st' = true := by
  rw [startSafe, Bool.and_eq_true, Bool.and_eq_true] at h
  obtain ⟨⟨hj, hjr⟩, hjd⟩ := h
  rw [List.all_eq_true] at hj
  rw [List.all_eq_true] at hjr
  rw [go]
  cases hlit : litLookup (f.getState s).j c with
  | some n =>
      obtain ⟨key, hmem⟩ := litLookup_mem _ _ _ hlit
      exact ⟨n, rfl, hj (key, n) hmem⟩
  | none =>
      cases hf2 : findJr (f.getState s).jr c with
      | some tgt =>
          obtain ⟨cls, hmem⟩ := findJr_mem _ _ _ hf2
          have htgt := hjr (cls, tgt) hmem
          cases tgt with
          | none => cases htgt
          | some n => exact ⟨n, rfl, htgt⟩
      | none =>
          cases hd : (f.getState s).jd with
          | none => rw [hd] at hjd; cases hjd
          | some n => rw [hd] at hjd; exact ⟨n, rfl, hjd⟩

theorem innerLoop_consumed (f : Fsm) :
    ∀ (rest : List JChar) (sid : Nat) (acc : InnerAcc),
    (innerLoop f sid rest acc).consumedUnits =
      acc.consumedUnits + unitLen (rest.take (pathSteps f sid rest)) ∧
    (innerLoop f sid rest acc).consumedChars =
      acc.consumedChars + pathSteps f sid rest := by
  intro rest
  induction rest with
  | nil => intro sid acc; simp [innerLoop, pathSteps, unitLen]
  | cons c r ih =>
      intro sid acc
      cases hgo : go f sid c with
      | none => simp [innerLoop, pathSteps, hgo, unitLen]
      | some st' =>
          have hps : pathSteps f sid (c :: r) = pathSteps f st' r + 1 := by
            simp [pathSteps, hgo]
          rw [hps, List.take_succ_cons, unitLen_cons]
          simp only [innerLoop, hgo]
          by_cases hacc : acceptsB f st' = true
          · rw [if_pos hacc]
            obtain ⟨h1, h2⟩ := ih st' ⟨some st', some 0, some 0,
              acc.consumedUnits + c.length, acc.consumedChars + 1⟩
            rw [h1, h2]
            dsimp only
            constructor <;> omega
          · rw [if_neg hacc]
            obtain ⟨lat, sa, ca, cu, cc⟩ := acc
            cases sa with
            | some sa =>
                cases ca with
                | some ca =>
                    obtain ⟨h1, h2⟩ := ih st' ⟨lat, some (sa + c.length), some (ca + 1),
                      cu + c.length, cc + 1⟩
                    rw [h1, h2]
                    dsimp only
                    constructor <;> omega
                | none =>
                    obtain ⟨h1, h2⟩ := ih st' ⟨lat, some sa, none, cu + c.length, cc + 1⟩
                    rw [h1, h2]
                    dsimp only
                    constructor <;> omega
            | none =>
                cases ca with
                | some ca =>
                    obtain ⟨h1, h2⟩ := ih st' ⟨lat, none, some ca, cu + c.length, cc + 1⟩
                    rw [h1, h2]
                    dsimp only
                    constructor <;> omega
                | none =>
                    obtain ⟨h1, h2⟩ := ih st' ⟨lat, none, none, cu + c.length, cc + 1⟩
                    rw [h1, h2]
                    dsimp only
                    constructor <;> omega

theorem innerLoop_none (f : Fsm) :
    ∀ (rest : List JChar) (sid : Nat) (acc : InnerAcc),
    acc.sinceAccepts.isSome = acc.charsSinceAccepts.isSome →
    scanSpec f sid rest = none →
    (innerLoop f sid rest acc).latest = acc.latest ∧
    (innerLoop f sid rest acc).sinceAccepts =
      acc.sinceAccepts.map (· + unitLen (rest.take (pathSteps f sid rest))) ∧
    (innerLoop f sid rest acc).charsSinceAccepts =
      acc.charsSinceAccepts.map (· + pathSteps f sid rest) := by
  intro rest
  induction rest with
  | nil =>
      intro sid acc hsync hs
      obtain ⟨lat, sa, ca, cu, cc⟩ := acc
      cases sa <;> cases ca <;> simp [innerLoop, pathSteps, unitLen]
  | cons c r ih =>
      intro sid acc hsync hs
      cases hgo : go f sid c with
      | none =>
          obtain ⟨lat, sa, ca, cu, cc⟩ := acc
          cases sa <;> cases ca <;> simp [innerLoop, pathSteps, hgo, unitLen]
      | some st' =>
          have hps : pathSteps f sid (c :: r) = pathSteps f st' r + 1 := by
            simp [pathSteps, hgo]
          simp only [scanSpec, hgo] at hs
          cases htail : scanSpec f st' r with
          | some p => rw [htail] at hs; obtain ⟨k', la'⟩ := p; cases hs
          | none =>
              rw [htail] at hs
              by_cases hacc : acceptsB f st' = true
              · rw [if_pos hacc] at hs; cases hs
              · rw [hps, List.take_succ_cons, unitLen_cons]
                simp only [innerLoop, hgo, if_neg hacc]
                obtain ⟨lat, sa, ca, cu, cc⟩ := acc
                cases sa with
                | some sa =>
                    cases ca with
                    | some ca =>
                        obtain ⟨h1, h2, h3⟩ := ih st'
                          ⟨lat, some (sa + c.length), some (ca + 1), cu + c.length, cc + 1⟩
                          (by rfl) htail
                        rw [h1, h2, h3]
                        dsimp only
                        refine ⟨rfl, ?_, ?_⟩
                        · simp only [Option.map_some']
                          congr 1
                          omega
                        · simp only [Option.map_some']
                          congr 1
                          omega
                    | none => simp at hsync
                | none =>
                    cases ca with
                    | some ca => simp at hsync
                    | none =>
                        obtain ⟨h1, h2, h3⟩ := ih st'
                          ⟨lat, none, none, cu + c.length, cc + 1⟩ (by rfl) htail
                        rw [h1, h2, h3]
                        dsimp only
                        simp

theorem innerLoop_some (f : Fsm) :
    ∀ (rest : List JChar) (sid : Nat) (acc : InnerAcc) (k la : Nat),
    scanSpec f sid rest = some (k, la) →
    k ≤ pathSteps f sid rest ∧
    (innerLoop f sid rest acc).latest = some la ∧
    (innerLoop f sid rest acc).sinceAccepts =
      some (unitLen ((rest.take (pathSteps f sid rest)).drop k)) ∧
    (innerLoop f sid rest acc).charsSinceAccepts =
      some (pathSteps f sid rest - k) := by
  intro rest
  induction rest with
  | nil => intro sid acc k la hs; cases hs
  | cons c r ih =>
      intro sid acc k la hs
      cases hgo : go f sid c with
      | none => simp only [scanSpec, hgo] at hs; cases hs
      | some st' =>
          have hps : pathSteps f sid (c :: r) = pathSteps f st' r + 1 := by
            simp [pathSteps, hgo]
          simp only [scanSpec, hgo] at hs
          cases htail : scanSpec f st' r with
          | some p =>
              obtain ⟨k', la'⟩ := p
              rw [htail] at hs
              simp only [Option.some.injEq, Prod.mk.injEq] at hs
              obtain ⟨rfl, rfl⟩ := hs
              rw [hps, List.take_succ_cons, List.drop_succ_cons]
              simp only [innerLoop, hgo]
              by_cases hacc : acceptsB f st' = true
              · rw [if_pos hacc]
                obtain ⟨hk, h1, h2, h3⟩ := ih st'
                  ⟨some st', some 0, some 0, acc.consumedUnits + c.length,
                   acc.consumedChars + 1⟩ k' la' htail
                rw [h1, h2, h3]
                refine ⟨by omega, rfl, rfl, by rw [Nat.succ_sub_succ]⟩
              · rw [if_neg hacc]
                obtain ⟨lat, sa, ca, cu, cc⟩ := acc
                cases sa with
                | some sa =>
                    cases ca with
                    | some ca =>
                        obtain ⟨hk, h1, h2, h3⟩ := ih st'
                          ⟨lat, some (sa + c.length), some (ca + 1), cu + c.length, cc + 1⟩
                          k' la' htail
                        rw [h1, h2, h3]
                        refine ⟨by omega, rfl, rfl, by rw [Nat.succ_sub_succ]⟩
                    | none =>
                        obtain ⟨hk, h1, h2, h3⟩ := ih st'
                          ⟨lat, some sa, none, cu + c.length, cc + 1⟩ k' la' htail
                        rw [h1, h2, h3]
                        refine ⟨by omega, rfl, rfl, by rw [Nat.succ_sub_succ]⟩
                | none =>
                    cases ca with
                    | some ca =>
                        obtain ⟨hk, h1, h2, h3⟩ := ih st'
                          ⟨lat, none, some ca, cu + c.length, cc + 1⟩ k' la' htail
                        rw [h1, h2, h3]
                        refine ⟨by omega, rfl, rfl, by rw [Nat.succ_sub_succ]⟩
                    | none =>
                        obtain ⟨hk, h1, h2, h3⟩ := ih st'
                          ⟨lat, none, none, cu + c.length, cc + 1⟩ k' la' htail
                        rw [h1, h2, h3]
                        refine ⟨by omega, rfl, rfl, by rw [Nat.succ_sub_succ]⟩
          | none =>
              rw [htail] at hs
              by_cases hacc : acceptsB f st' = true
              · rw [if_pos hacc] at hs
                simp only [Option.some.injEq, Prod.mk.injEq] at hs
                obtain ⟨rfl, rfl⟩ := hs
                rw [hps, List.take_succ_cons, List.drop_succ_cons, List.drop_zero]
                simp only [innerLoop, hgo, if_pos hacc]
                obtain ⟨h1, h2, h3⟩ := innerLoop_none f r st'
                  ⟨some st', some 0, some 0, acc.consumedUnits + c.length,
                   acc.consumedChars + 1⟩ (by rfl) htail
                rw [h1, h2, h3]
                dsimp only
                refine ⟨by omega, rfl, ?_, ?_⟩
                · simp
                · simp
              · rw [if_neg hacc] at hs; cases hs

theorem unitLen_take_split (rest : List JChar) (k ps : Nat) (hk : k ≤ ps) :
    unitLen (rest.take ps) =
      unitLen (rest.take k) + unitLen ((rest.take ps).drop k) := by
  conv_lhs => rw [← List.take_append_drop k (rest.take ps)]
  rw [unitLen_append, List.take_take, Nat.min_eq_left hk]

theorem runAux_step (f : Fsm) (start : Nat) (str : Str) (it : List JChar)
    (fuel cursor cc k la : Nat) (toks : List Tok)
    (hcc : cc < it.length)
    (hscan : scanSpec f start (it.drop cc) = some (k, la)) :
    runAux f start str it (fuel + 1) cursor cc toks =
      runAux f start str it fuel
        (cursor + unitLen ((it.drop cc).take k)) (cc + k)
        (toks ++ [⟨tagOfD f la,
                   strSlice str cursor (cursor + unitLen ((it.drop cc).take k)),
                   cursor, cursor + unitLen ((it.drop cc).take k)⟩]) := by
  obtain ⟨hk, hlat, hsa, hca⟩ :=
    innerLoop_some f (it.drop cc) start ⟨none, none, none, 0, 0⟩ k la hscan
  obtain ⟨hcu, hcc'⟩ := innerLoop_consumed f (it.drop cc) start ⟨none, none, none, 0, 0⟩
  have hsplit := unitLen_take_split (it.drop cc) k (pathSteps f start (it.drop cc)) hk
  set ps := pathSteps f start (it.drop cc) with hps
  set A := unitLen ((it.drop cc).take ps) with hA
  set B := unitLen (((it.drop cc).take ps).drop k) with hB
  set L := unitLen ((it.drop cc).take k) with hL
  simp only [runAux, hcc, if_true, hlat, hsa, hca, hcu, hcc']
  have e5 : (⟨none, none, none, 0, 0⟩ : InnerAcc).consumedUnits + A - B = L := by
    dsimp only
    omega
  dsimp only at e5 ⊢
  rw [e5]
  have e2 : cursor + (0 + A) - B = cursor + L := by omega
  have e3 : cc + (0 + ps) - (ps - k) = cc + k := by omega
  rw [e2, e3]
  have e4 : cursor + L - L = cursor := by omega
  rw [e4]

theorem runAux_total (f : Fsm) (start : Nat) (str : Str) (it : List JChar)
    (H : ∀ rest : List JChar, rest ≠ [] →
      ∃ k la, scanSpec f start rest = some (k, la)) :
    ∀ (fuel cc cursor : Nat) (toks : List Tok), it.length - cc < fuel →
    ∃ newToks, runAux f start str it fuel cursor cc toks = some (toks ++ newToks) ∧
      TokChain f start str it cc cursor newToks := by
  intro fuel
  induction fuel with
  | zero => intro cc cursor toks h; omega
  | succ fuel ih =>
      intro cc cursor toks h
      by_cases hcc : cc < it.length
      · have hne : it.drop cc ≠ [] := by
          intro hnil
          rw [List.drop_eq_nil_iff] at hnil
          omega
        obtain ⟨k, la, hscan⟩ := H _ hne
        have hk1 := (scanSpec_bounds f _ _ _ _ hscan).1
        rw [runAux_step f start str it fuel cursor cc k la toks hcc hscan]
        obtain ⟨newToks, hrun, hchain⟩ := ih (cc + k)
          (cursor + unitLen ((it.drop cc).take k))
          (toks ++ [⟨tagOfD f la,
            strSlice str cursor (cursor + unitLen ((it.drop cc).take k)),
            cursor, cursor + unitLen ((it.drop cc).take k)⟩])
          (by omega)
        refine ⟨⟨tagOfD f la,
            strSlice str cursor (cursor + unitLen ((it.drop cc).take k)),
            cursor, cursor + unitLen ((it.drop cc).take k)⟩ :: newToks, ?_, ?_⟩
        · rw [hrun, List.append_assoc, List.singleton_append]
        · exact TokChain.cons hcc hscan hchain
      · refine ⟨[], ?_, TokChain.nil hcc⟩
        simp only [runAux, hcc, if_false, List.append_nil]

theorem tokChain_spans (f : Fsm) (start : Nat) (str : Str) (it : List JChar)
    {cc cursor : Nat} {toks : List Tok}
    (h : TokChain f start str it cc cursor toks)
    (hit : unitLen it = str.length) :
    cursor = unitLen (it.take cc) → spansFrom cursor toks str.length := by
  induction h with
  | @nil cc cursor hlt =>
      intro hc
      show cursor = str.length
      rw [hc, List.take_of_length_le (by omega), hit]
  | @cons cc cursor k la toks hcc hscan hrest ih =>
      intro hc
      refine ⟨rfl, ih ?_⟩
      rw [hc, List.take_add, unitLen_append]

theorem tokChain_concat (f : Fsm) (start : Nat) (str : Str) (it : List JChar)
    {cc cursor : Nat} {toks : List Tok}
    (h : TokChain f start str it cc cursor toks)
    (hit : unitLen it = str.length) :
    cursor = unitLen (it.take cc) → concatV toks = strSlice str cursor str.length := by
  induction h with
  | @nil cc cursor hlt =>
      intro hc
      have hcl : cursor = str.length := by
        rw [hc, List.take_of_length_le (by omega), hit]
      rw [hcl]
      exact (strSlice_nil_of_le str _ _ (le_refl _)).symm
  | @cons cc cursor k la toks hcc hscan hrest ih =>
      intro hc
      have hc' : cursor + unitLen ((it.drop cc).take k) = unitLen (it.take (cc + k)) := by
        rw [hc, List.take_add, unitLen_append]
      have hle : cursor + unitLen ((it.drop cc).take k) ≤ str.length := by
        rw [hc', ← hit]
        exact unitLen_take_le it (cc + k)
      have := ih hc'
      show Tok.v _ ++ concatV _ = _
      rw [this]
      exact strSlice_append str cursor _ str.length (by omega) hle

theorem tokChain_mem (f : Fsm) (start : Nat) (str : Str) (it : List JChar)
    {cc cursor : Nat} {toks : List Tok}
    (h : TokChain f start str it cc cursor toks)
    (hwf : ∀ c ∈ it, goodChar c) :
    ∀ tok ∈ toks, tok.s < tok.e ∧ tok.v = strSlice str tok.s tok.e := by
  induction h with
  | nil => intro tok ht; cases ht
  | @cons cc cursor k la toks hcc hscan hrest ih =>
      intro tok ht
      rcases List.mem_cons.mp ht with rfl | ht
      · refine ⟨?_, rfl⟩
        have hk := (scanSpec_bounds f _ _ _ _ hscan).1
        have hne : it.drop cc ≠ [] := by
          intro hnil
          rw [List.drop_eq_nil_iff] at hnil
          omega
        obtain ⟨c, r, hcr⟩ : ∃ c r, it.drop cc = c :: r := by
          cases hd : it.drop cc with
          | nil => exact absurd hd hne
          | cons c r => exact ⟨c, r, rfl⟩
        have hcmem : c ∈ it := List.drop_subset cc it (hcr ▸ List.mem_cons_self c r)
        have hlen := goodChar_length_pos c (hwf c hcmem)
        show cursor < cursor + unitLen ((it.drop cc).take k)
        rw [hcr]
        cases k with
        | zero => omega
        | succ k' =>
            rw [List.take_succ_cons, unitLen_cons]
            omega
      · exact ih tok ht

theorem strSlice_middle (p m s : Str) :
    strSlice (p ++ (m ++ s)) p.length (p.length + m.length) = m := by
  rw [strSlice, List.take_append, List.take_left, List.drop_left]

theorem flatten_strSlice (it : List JChar) (cc k : Nat) :
    strSlice it.flatten (unitLen (it.take cc)) (unitLen (it.take (cc + k))) =
      ((it.drop cc).take k).flatten := by
  have hdecomp : it.flatten =
      (it.take cc).flatten ++
        (((it.drop cc).take k).flatten ++ ((it.drop cc).drop k).flatten) := by
    conv_lhs => rw [← List.take_append_drop cc it]
    rw [List.flatten_append]
    congr 1
    conv_lhs => rw [← List.take_append_drop k (it.drop cc)]
    rw [List.flatten_append]
  have h2 : unitLen (it.take (cc + k)) =
      (it.take cc).flatten.length + ((it.drop cc).take k).flatten.length := by
    rw [unitLen_eq_flatten_length, List.take_add, List.flatten_append, List.length_append]
  rw [hdecomp, unitLen_eq_flatten_length, h2]
  exact strSlice_middle _ _ _

set_option maxRecDepth 100000

theorem fsm0_startSafe : startSafe fsm0 0 = true := by decide

theorem fsm0_scan_start (rest : List JChar) (hne : rest ≠ []) :
    ∃ k la, scanSpec fsm0 0 rest = some (k, la) := by
  cases rest with
  | nil => exact absurd rfl hne
  | cons c r =>
      obtain ⟨st', hgo, hacc⟩ := startSafe_go fsm0 0 fsm0_startSafe c
      cases htail : scanSpec fsm0 st' r with
      | some p =>
          exact ⟨p.1 + 1, p.2, by simp only [scanSpec, hgo, htail]⟩
      | none =>
          exact ⟨1, st', by simp only [scanSpec, hgo, htail]; rw [if_pos hacc]⟩

theorem run_fsm0_chain (s : Str) :
    ∃ toks, run fsm0 0 s = some toks ∧
      TokChain fsm0 0 s (stringToArray (lowerAscii s)) 0 0 toks := by
  obtain ⟨newToks, hrun, hchain⟩ := runAux_total fsm0 0 s (stringToArray (lowerAscii s))
    (fun rest hne => fsm0_scan_start rest hne)
    ((stringToArray (lowerAscii s)).length + 1) 0 0 [] (by omega)
  refine ⟨newToks, ?_, hchain⟩
  simp only [run]
  rw [hrun, List.nil_append]

theorem stringToArray_unitLen (s : Str) :
    unitLen (stringToArray (lowerAscii s)) = s.length := by
  rw [unitLen_eq_flatten_length, stringToArray_flatten, lowerAscii_length]

/-- Claim C1: for every input string `s`, the token list returned by
`run(start, s)` is a partition of `s`: the first token starts at index 0,
each subsequent token starts where the previous one ended, the last token
ends at `s.length`, and the concatenation of the token values is exactly
`s`.  (`run` returns `some` here; the `Option` in the model only covers
the failure the scanner never reaches.) -/
theorem claim_C1 (s : Str) :
    ∃ toks, run fsm0 0 s = some toks ∧
      spansFrom 0 toks s.length ∧ concatV toks = s := by
  obtain ⟨toks, hrun, hchain⟩ := run_fsm0_chain s
  have hit := stringToArray_unitLen s
  refine ⟨toks, hrun, ?_, ?_⟩
  · exact tokChain_spans fsm0 0 s _ hchain hit rfl
  · have := tokChain_concat fsm0 0 s _ hchain hit rfl
    rw [this, strSlice_zero_length]

/-- Claim C10: `run(start, s)` terminates for every finite input: the
first transition out of the start state always lands on an accepting
state, so the rollback never rewinds the cursor to or before the token's
starting position and every iteration of the outer loop consumes at least
one code point (each emitted token has `s < e`, and `run` succeeds within
its iteration bound). -/
theorem claim_C10 :
    (∀ c : JChar, ∃ st', go fsm0 0 c = some st' ∧ acceptsB fsm0 st' = true) ∧
    (∀ s : Str, ∃ toks, run fsm0 0 s = some toks ∧
      ∀ tok ∈ toks, tok.s < tok.e) := by
  constructor
  · exact startSafe_go fsm0 0 fsm0_startSafe
  · intro s
    obtain ⟨toks, hrun, hchain⟩ := run_fsm0_chain s
    refine ⟨toks, hrun, fun tok ht => ?_⟩
    exact (tokChain_mem fsm0 0 s _ hchain (stringToArray_good (lowerAscii s)) tok ht).1

/-- Claim C8: `stringToArray` splits a string into slices whose
concatenation is the original string; every slice has one or two units,
and has two exactly when it is a high surrogate immediately followed by a
low surrogate. -/
theorem claim_C8 (s : Str) :
    (stringToArray s).flatten = s ∧
    ∀ c ∈ stringToArray s,
      (c.length = 1 ∨ c.length = 2) ∧
      (c.length = 2 ↔ ∃ h l, c = [h, l] ∧
        0xD800 ≤ h ∧ h ≤ 0xDBFF ∧ 0xDC00 ≤ l ∧ l ≤ 0xDFFF) := by
  refine ⟨stringToArray_flatten s, fun c hc => ?_⟩
  rcases stringToArray_good s c hc with ⟨u, rfl⟩ | ⟨h, l, rfl, h1, h2, h3, h4⟩
  · refine ⟨Or.inl rfl, ?_⟩
    constructor
    · intro hlen; cases hlen
    · rintro ⟨h, l, heq, -⟩
      cases heq
  · exact ⟨Or.inr rfl, fun _ => ⟨h, l, rfl, h1, h2, h3, h4⟩, fun _ => rfl⟩

theorem runAux_shape (f : Fsm) (start : Nat) (it : List JChar) (str1 str2 : Str) :
    ∀ (fuel cursor cc : Nat) (toks1 toks2 : List Tok) (r1 : List Tok),
    List.Forall₂ shapeEq toks1 toks2 →
    runAux f start str1 it fuel cursor cc toks1 = some r1 →
    ∃ r2, runAux f start str2 it fuel cursor cc toks2 = some r2 ∧
      List.Forall₂ shapeEq r1 r2 := by
  intro fuel
  induction fuel with
  | zero => intro cursor cc toks1 toks2 r1 hf hrun; cases hrun
  | succ fuel ih =>
      intro cursor cc toks1 toks2 r1 hf hrun
      by_cases hcc : cc < it.length
      · simp only [runAux, hcc, if_true] at hrun ⊢
        cases hl : (innerLoop f start (it.drop cc) ⟨none, none, none, 0, 0⟩).latest with
        | none => rw [hl] at hrun; cases hrun
        | some la =>
            rw [hl] at hrun
            cases hs : (innerLoop f start (it.drop cc) ⟨none, none, none, 0, 0⟩).sinceAccepts with
            | none => rw [hs] at hrun; cases hrun
            | some sa =>
                rw [hs] at hrun
                cases hc2 : (innerLoop f start (it.drop cc)
                    ⟨none, none, none, 0, 0⟩).charsSinceAccepts with
                | none => rw [hc2] at hrun; cases hrun
                | some ca =>
                    rw [hc2] at hrun
                    refine ih _ _ _ _ _ (List.rel_append hf ?_) hrun
                    exact List.Forall₂.cons ⟨rfl, rfl, rfl⟩ List.Forall₂.nil
      · simp only [runAux, hcc, if_false] at hrun ⊢
        injection hrun with h1
        exact ⟨toks2, rfl, h1 ▸ hf⟩

/-- Claim C3: scanning is ASCII-case-insensitive but case-preserving:
`run` on `s` and on `upper_ascii(s)` produce token lists of the same
length with identical tags and spans, and each token's value is sliced
from its own original (uncased) input at those offsets. -/
theorem claim_C3 (s : Str) :
    ∃ toks toks', run fsm0 0 s = some toks ∧
      run fsm0 0 (upperAscii s) = some toks' ∧
      List.Forall₂ shapeEq toks toks' ∧
      (∀ tok ∈ toks, tok.v = strSlice s tok.s tok.e) ∧
      (∀ tok ∈ toks', tok.v = strSlice (upperAscii s) tok.s tok.e) := by
  obtain ⟨toks, hrun, hchain⟩ := run_fsm0_chain s
  obtain ⟨toks', hrun', hchain'⟩ := run_fsm0_chain (upperAscii s)
  have hsame : stringToArray (lowerAscii (upperAscii s)) = stringToArray (lowerAscii s) := by
    rw [lowerAscii_upperAscii]
  refine ⟨toks, toks', hrun, hrun', ?_, ?_, ?_⟩
  · have hrun1 : runAux fsm0 0 s (stringToArray (lowerAscii s))
        ((stringToArray (lowerAscii s)).length + 1) 0 0 [] = some toks := by
      simpa only [run] using hrun
    have hrun2 : runAux fsm0 0 (upperAscii s) (stringToArray (lowerAscii s))
        ((stringToArray (lowerAscii s)).length + 1) 0 0 [] = some toks' := by
      have := hrun'
      simp only [run, hsame] at this
      exact this
    obtain ⟨r2, hr2, hfa⟩ := runAux_shape fsm0 0 (stringToArray (lowerAscii s)) s
      (upperAscii s) _ 0 0 [] [] toks List.Forall₂.nil hrun1
    rw [hr2] at hrun2
    injection hrun2 with he
    exact he ▸ hfa
  · exact fun tok ht =>
      (tokChain_mem fsm0 0 s _ hchain (stringToArray_good (lowerAscii s)) tok ht).2
  · exact fun tok ht =>
      (tokChain_mem fsm0 0 (upperAscii s) _ hchain'
        (stringToArray_good (lowerAscii (upperAscii s))) tok ht).2

theorem litLookup_eq_none (j : List (Nat × Nat)) (c : JChar)
    (h : ∀ p ∈ j, c ≠ [p.1]) : litLookup j c = none := by
  induction j with
  | nil => rfl
  | cons p rest ih =>
      obtain ⟨key, tgt⟩ := p
      rw [litLookup, if_neg (h (key, tgt) (List.mem_cons_self _ _))]
      exact ih (fun q hq => h q (List.mem_cons_of_mem _ hq))

theorem findJr_eq_none (jr : List (CharClass × Option Nat)) (c : JChar)
    (h : ∀ p ∈ jr, classTest p.1 c = false) : findJr jr c = none := by
  induction jr with
  | nil => rfl
  | cons p rest ih =>
      obtain ⟨cls, tgt⟩ := p
      rw [findJr]
      rw [if_neg (by rw [h (cls, tgt) (List.mem_cons_self _ _)]; exact Bool.false_ne_true)]
      exact ih (fun q hq => h q (List.mem_cons_of_mem _ hq))

theorem surrogate_classTest (u : Nat) (h1 : 0xD800 ≤ u) (h2 : u ≤ 0xDFFF) :
    ∀ cls : CharClass, classTest cls [u] = false := by
  intro cls
  cases hct : classTest cls [u] with
  | false => rfl
  | true =>
      exfalso
      cases cls <;>
        simp only [classTest, isDigitU, isAsciiLetterU, isLetterU, isSpaceU, isEmojiU,
          Bool.or_eq_true, Bool.and_eq_true, decide_eq_true_eq, beq_iff_eq] at hct <;>
        omega

theorem run_single (f : Fsm) (u : Nat) (hu : lowerUnit u = u) (st' : Nat)
    (hgo : go f 0 [u] = some st') (hacc : acceptsB f st' = true) :
    run f 0 [u] = some [⟨tagOfD f st', [u], 0, 1⟩] := by
  have hit : stringToArray (lowerAscii [u]) = [[u]] := by
    rw [lowerAscii]
    simp only [List.map_cons, List.map_nil, hu]
    rfl
  have hscan : scanSpec f 0 [[u]] = some (1, st') := by
    simp only [scanSpec, hgo]
    rw [if_pos hacc]
  simp only [run, hit]
  have := runAux_step f 0 [u] [[u]] 1 0 0 1 st' [] (by norm_num) hscan
  simp only [List.length_cons, List.length_nil] at this ⊢
  rw [this]
  show runAux f 0 [u] [[u]] 1 (0 + 1) (0 + 1) [⟨tagOfD f st', [u], 0, 0 + 1⟩] = _
  norm_num [runAux]

theorem go_surrogate (u : Nat) (h1 : 0xD800 ≤ u) (h2 : u ≤ 0xDFFF) :
    go fsm0 0 [u] = some symStateId := by
  have hkeys : ∀ p ∈ (fsm0.getState 0).j, p.1 < 0xD800 ∨ 0xDFFF < p.1 := by
    have hb : ((fsm0.getState 0).j.all
        (fun p => decide (p.1 < 0xD800 ∨ 0xDFFF < p.1))) = true := by decide
    rw [List.all_eq_true] at hb
    exact fun p hp => of_decide_eq_true (hb p hp)
  have hlit : litLookup (fsm0.getState 0).j [u] = none := by
    refine litLookup_eq_none _ _ (fun p hp he => ?_)
    have := hkeys p hp
    injection he with he1 he2
    omega
  have hjr : findJr (fsm0.getState 0).jr [u] = none :=
    findJr_eq_none _ _ (fun p _ => surrogate_classTest u h1 h2 p.1)
  simp only [go, hlit, hjr]
  decide

/-- Claim C2: the scanner never fails on any input: `run` always returns
a token list; the start state's default transition leads to the accepting
SYM state; and arbitrary code points — lone surrogates, nulls, control
characters — are consumed as SYM or WS tokens rather than raising an
error. -/
theorem claim_C2 :
    (∀ s : Str, ∃ toks, run fsm0 0 s = some toks) ∧
    ((fsm0.getState 0).jd.map (fun n => (fsm0.getState n).t) = some (some "SYM")) ∧
    (∀ u : Nat, 0xD800 ≤ u → u ≤ 0xDFFF →
      run fsm0 0 [u] = some [⟨"SYM", [u], 0, 1⟩]) ∧
    run fsm0 0 [0] = some [⟨"SYM", [0], 0, 1⟩] ∧
    run fsm0 0 [1] = some [⟨"SYM", [1], 0, 1⟩] ∧
    run fsm0 0 [9] = some [⟨"WS", [9], 0, 1⟩] := by
  refine ⟨?_, by decide, ?_, by decide, by decide, by decide⟩
  · intro s
    obtain ⟨toks, hrun, _⟩ := run_fsm0_chain s
    exact ⟨toks, hrun⟩
  · intro u h1 h2
    have hgo := go_surrogate u h1 h2
    have hone := run_single fsm0 u
      (by rw [lowerUnit, if_neg (by omega)]) symStateId hgo (by decide)
    have htag : tagOfD fsm0 symStateId = "SYM" := by decide
    rw [htag] at hone
    exact hone

/-- Witness for C2 at the lone high surrogate U+D800. -/
theorem claim_C2_witness :
    run fsm0 0 [0xD800] = some [⟨"SYM", [0xD800], 0, 1⟩] :=
  claim_C2.2.2.1 0xD800 (by norm_num) (by norm_num)

theorem nl_go_none (c : JChar) : go fsm0 nlStateId c = none :=
  go_eq_none fsm0 nlStateId c (by decide) (by decide) (by decide)

theorem crlf_scanSpec (rest : List JChar) :
    scanSpec fsm0 0 ([13] :: [10] :: rest) = some (2, nlStateId) := by
  have h1 : go fsm0 0 [13] = some crStateId := by decide
  have h2 : go fsm0 crStateId [10] = some nlStateId := by decide
  have h3 : scanSpec fsm0 nlStateId rest = none :=
    scanSpec_none_of_go_none fsm0 nlStateId nl_go_none rest
  simp only [scanSpec, h1, h2, h3]
  rw [if_pos (by decide)]

theorem crlfs_add (a b : Nat) : crlfs (a + b) = crlfs a ++ crlfs b := by
  induction a with
  | zero => rw [Nat.zero_add, crlfs, List.nil_append]
  | succ a ih => rw [Nat.succ_add, crlfs, ih, crlfs, List.cons_append, List.cons_append]

theorem crlfs_length (n : Nat) : (crlfs n).length = 2 * n := by
  induction n with
  | zero => rfl
  | succ n ih => rw [crlfs, List.length_cons, List.length_cons, ih]; omega

theorem crlfs_units (n : Nat) : ∀ u ∈ crlfs n, u = 13 ∨ u = 10 := by
  induction n with
  | zero => intro u hu; cases hu
  | succ n ih =>
      intro u hu
      rw [crlfs] at hu
      rcases List.mem_cons.mp hu with rfl | hu
      · exact Or.inl rfl
      · rcases List.mem_cons.mp hu with rfl | hu
        · exact Or.inr rfl
        · exact ih u hu

theorem lowerAscii_eq_self (s : Str) (h : ∀ u ∈ s, u < 65) : lowerAscii s = s := by
  induction s with
  | nil => rfl
  | cons u rest ih =>
      rw [lowerAscii, List.map_cons]
      rw [show lowerUnit u = u by
        rw [lowerUnit, if_neg (by have := h u (List.mem_cons_self _ _); omega)]]
      rw [show List.map lowerUnit rest = rest from
        ih (fun v hv => h v (List.mem_cons_of_mem _ hv))]

theorem stringToArray_bmp (s : Str) (h : ∀ u ∈ s, u < 0xD800) :
    stringToArray s = s.map (fun u => [u]) := by
  induction s using stringToArray.induct with
  | case1 => rfl
  | case2 u => rfl
  | case3 u v rest hcond ih =>
      exfalso
      have := h u (List.mem_cons_self _ _)
      omega
  | case4 u v rest hcond ih =>
      rw [stringToArray, if_neg hcond, List.map_cons]
      rw [ih (fun w hw => h w (List.mem_cons_of_mem _ hw))]

theorem crlf_runAux (n : Nat) :
    ∀ (j i fuel : Nat) (toks : List Tok), i + j = n → j + 1 ≤ fuel →
    runAux fsm0 0 (crlfs n) ((crlfs n).map (fun u => [u])) fuel (2 * i) (2 * i) toks =
      some (toks ++ (List.range j).map (fun m => nlTok (i + m))) := by
  intro j
  induction j with
  | zero =>
      intro i fuel toks hij hfuel
      obtain ⟨fuel', rfl⟩ : ∃ fp, fuel = fp + 1 := ⟨fuel - 1, by omega⟩
      have hlen : ((crlfs n).map (fun u => [u])).length = 2 * i := by
        rw [List.length_map, crlfs_length]
        omega
      simp only [runAux, hlen]
      rw [if_neg (lt_irrefl _)]
      rw [List.range_zero, List.map_nil, List.append_nil]
  | succ j ih =>
      intro i fuel toks hij hfuel
      obtain ⟨fuel', rfl⟩ : ∃ fp, fuel = fp + 1 := ⟨fuel - 1, by omega⟩
      have hsplit : crlfs n = crlfs i ++ crlfs (j + 1) := by
        rw [← crlfs_add, hij]
      have hmaplen : ((crlfs i).map (fun u => ([u] : JChar))).length = 2 * i := by
        rw [List.length_map, crlfs_length]
      have hdrop : ((crlfs n).map (fun u => ([u] : JChar))).drop (2 * i) =
          [13] :: [10] :: ((crlfs j).map (fun u => [u])) := by
        rw [hsplit, List.map_append, ← hmaplen, List.drop_left, crlfs, List.map_cons,
          List.map_cons]
      have hcc : 2 * i < ((crlfs n).map (fun u => ([u] : JChar))).length := by
        rw [List.length_map, crlfs_length]
        omega
      have hscan : scanSpec fsm0 0 (((crlfs n).map (fun u => ([u] : JChar))).drop (2 * i)) =
          some (2, nlStateId) := by
        rw [hdrop]
        exact crlf_scanSpec _
      rw [runAux_step fsm0 0 (crlfs n) _ fuel' (2 * i) (2 * i) 2 nlStateId toks hcc hscan]
      rw [hdrop]
      have htake : (([13] : JChar) :: ([10] : JChar) ::
          ((crlfs j).map (fun u => ([u] : JChar)))).take 2 = [[13], [10]] := rfl
      rw [htake]
      have hni : unitLen [[13], [10]] = 2 := rfl
      rw [hni]
      have hslice : strSlice (crlfs n) (2 * i) (2 * i + 2) = [13, 10] := by
        rw [strSlice, hsplit]
        rw [show 2 * i + 2 = (crlfs i).length + 2 by rw [crlfs_length]]
        rw [List.take_append]
        rw [show (2 : Nat) * i = (crlfs i).length by rw [crlfs_length]]
        rw [List.drop_left]
        rw [crlfs]
        rfl
      rw [hslice]
      have htag : tagOfD fsm0 nlStateId = "NL" := by decide
      rw [htag]
      have hih := ih (i + 1) fuel' (toks ++ [nlTok i]) (by omega) (by omega)
      rw [show 2 * (i + 1) = 2 * i + 2 by omega] at hih
      show runAux fsm0 0 (crlfs n) ((crlfs n).map (fun u => [u])) fuel'
        (2 * i + 2) (2 * i + 2) (toks ++ [nlTok i]) = _
      rw [hih]
      congr 1
      rw [List.append_assoc, List.singleton_append]
      congr 1
      rw [List.range_succ_eq_map, List.map_cons, List.map_map]
      congr 1
      refine List.map_congr_left (fun m _ => ?_)
      show nlTok (i + 1 + m) = nlTok (i + Nat.succ m)
      rw [show i + 1 + m = i + Nat.succ m by omega]

/-- Claim C6 (amended): a lone LF is an NL token and a lone CR a WS
token; CR LF is a single NL token; and a run of consecutive CRLF
sequences emits one NL token per CRLF pair (not a single NL token for
the whole run). -/
theorem claim_C6 :
    run fsm0 0 [10] = some [⟨"NL", [10], 0, 1⟩] ∧
    run fsm0 0 [13] = some [⟨"WS", [13], 0, 1⟩] ∧
    run fsm0 0 [13, 10] = some [⟨"NL", [13, 10], 0, 2⟩] ∧
    ∀ n : Nat, run fsm0 0 (crlfs n) = some ((List.range n).map nlTok) := by
  refine ⟨by decide, by decide, by decide, ?_⟩
  intro n
  have hunits : ∀ u ∈ crlfs n, u < 65 := fun u hu => by
    rcases crlfs_units n u hu with rfl | rfl <;> omega
  have hl : lowerAscii (crlfs n) = crlfs n := lowerAscii_eq_self _ hunits
  have hb : stringToArray (crlfs n) = (crlfs n).map (fun u => [u]) :=
    stringToArray_bmp _ (fun u hu => by have := hunits u hu; omega)
  simp only [run, hl, hb]
  have hmain := crlf_runAux n n 0 (((crlfs n).map (fun u => ([u] : JChar))).length + 1) []
    (by omega) (by rw [List.length_map, crlfs_length]; omega)
  rw [show 2 * 0 = 0 from rfl] at hmain
  rw [hmain, List.nil_append]
  congr 1
  exact List.map_congr_left (fun m _ => by rw [Nat.zero_add])

/-- Counterexample to C6 as stated: a run of two CRLF sequences emits two
NL tokens, not one. -/
theorem claim_C6_counterexample :
    (run fsm0 0 [13, 10, 13, 10]).map List.length = some 2 ∧
    (run fsm0 0 [13, 10, 13, 10]).map List.length ≠ some 1 := by
  constructor
  · decide
  · decide

theorem asciiLetter_not_digit (c : JChar) (h : classTest .ASCII_LETTER c = true) :
    classTest .DIGIT c = false := by
  rcases c with _ | ⟨u, _ | ⟨v, r⟩⟩
  · simp [classTest] at h
  · simp only [classTest, isAsciiLetterU, Bool.and_eq_true, decide_eq_true_eq] at h
    simp only [classTest, isDigitU]
    rw [Bool.and_eq_false_iff]
    right
    simp only [decide_eq_false_iff_not]
    omega
  · simp [classTest] at h

theorem go_by_class (f : Fsm) (sid : Nat) (c : JChar) (tgt : Nat)
    (hj : (f.getState sid).j = [])
    (hhit : findJr (f.getState sid).jr c = some (some tgt)) :
    go f sid c = some tgt := by
  rw [go, hj]
  simp only [litLookup, hhit]

/-- Counterexample to C7 as stated: stepping on the DIGIT character `0`
from the NUM state self-loops on the NUM state (tag `NUM`), which is not
an ASCIINUMERIC state. -/
theorem claim_C7_counterexample :
    isDigitU 48 = true ∧
    go fsm0 numStateId [48] = some numStateId ∧
    (fsm0.getState numStateId).t = some "NUM" ∧
    (some "NUM" : Option String) ≠ some "ASCIINUMERICAL" := by
  refine ⟨by decide, by decide, by decide, by decide⟩

/-- Claim C7 (amended): stepping on a DIGIT from the WORD state and
stepping on an ASCII_LETTER from the NUM state each reach the accepting
ASCIINUMERIC state, and that state self-loops on both the DIGIT and the
ASCII_LETTER class; a DIGIT from the NUM state self-loops on NUM
instead. -/
theorem claim_C7 :
    (∀ c : JChar, classTest .DIGIT c = true →
      go fsm0 wordStateId c = some asciinumericStateId) ∧
    (∀ c : JChar, classTest .ASCII_LETTER c = true →
      go fsm0 numStateId c = some asciinumericStateId) ∧
    (∀ c : JChar, classTest .DIGIT c = true →
      go fsm0 numStateId c = some numStateId) ∧
    acceptsB fsm0 asciinumericStateId = true ∧
    (fsm0.getState asciinumericStateId).t = some "ASCIINUMERICAL" ∧
    (∀ c : JChar, classTest .DIGIT c = true →
      go fsm0 asciinumericStateId c = some asciinumericStateId) ∧
    (∀ c : JChar, classTest .ASCII_LETTER c = true →
      go fsm0 asciinumericStateId c = some asciinumericStateId) := by
  have hjw : (fsm0.getState wordStateId).j = [] := by decide
  have hjrw : (fsm0.getState wordStateId).jr =
      [(.DIGIT, some asciinumericStateId), (.ASCII_LETTER, some wordStateId)] := by decide
  have hjn : (fsm0.getState numStateId).j = [] := by decide
  have hjrn : (fsm0.getState numStateId).jr =
      [(.DIGIT, some numStateId), (.ASCII_LETTER, some asciinumericStateId),
       (.LETTER, some alphanumericStateId)] := by decide
  have hja : (fsm0.getState asciinumericStateId).j = [] := by decide
  have hjra : (fsm0.getState asciinumericStateId).jr =
      [(.DIGIT, some asciinumericStateId), (.ASCII_LETTER, some asciinumericStateId)] := by
    decide
  refine ⟨?_, ?_, ?_, by decide, by decide, ?_, ?_⟩
  · intro c h
    refine go_by_class fsm0 wordStateId c _ hjw ?_
    rw [hjrw, findJr, if_pos h]
  · intro c h
    refine go_by_class fsm0 numStateId c _ hjn ?_
    rw [hjrn, findJr]
    rw [if_neg (by rw [asciiLetter_not_digit c h]; exact Bool.false_ne_true)]
    rw [findJr, if_pos h]
  · intro c h
    refine go_by_class fsm0 numStateId c _ hjn ?_
    rw [hjrn, findJr, if_pos h]
  · intro c h
    refine go_by_class fsm0 asciinumericStateId c _ hja ?_
    rw [hjra, findJr, if_pos h]
  · intro c h
    refine go_by_class fsm0 asciinumericStateId c _ hja ?_
    rw [hjra, findJr]
    rw [if_neg (by rw [asciiLetter_not_digit c h]; exact Bool.false_ne_true)]
    rw [findJr, if_pos h]

/-- Witness for C7 at the digit `0` and the letter `a`. -/
theorem claim_C7_witness :
    go fsm0 wordStateId [48] = some asciinumericStateId ∧
    go fsm0 numStateId [97] = some asciinumericStateId ∧
    go fsm0 numStateId [48] = some numStateId ∧
    go fsm0 asciinumericStateId [48] = some asciinumericStateId ∧
    go fsm0 asciinumericStateId [97] = some asciinumericStateId :=
  ⟨claim_C7.1 [48] (by decide), claim_C7.2.1 [97] (by decide),
   claim_C7.2.2.1 [48] (by decide), claim_C7.2.2.2.2.2.1 [48] (by decide),
   claim_C7.2.2.2.2.2.2 [97] (by decide)⟩

theorem pound_go_none (c : JChar) : go fsm0 poundStateId c = none :=
  go_eq_none fsm0 poundStateId c (by decide) (by decide) (by decide)

theorem hashE_go_none (c : JChar) : go fsm0 hashFromEmojiId c = none :=
  go_eq_none fsm0 hashFromEmojiId c (by decide) (by decide) (by decide)

theorem hashJ_go_none (c : JChar) : go fsm0 hashFromJoinerId c = none :=
  go_eq_none fsm0 hashFromJoinerId c (by decide) (by decide) (by decide)

theorem go_hash_cases (sid : Nat) :
    go fsm0 sid [35] = none ∨ go fsm0 sid [35] = some poundStateId ∨
    go fsm0 sid [35] = some hashFromEmojiId ∨
    go fsm0 sid [35] = some hashFromJoinerId := by
  by_cases h : sid < fsm0.states.length
  · have hb : ∀ s, s < fsm0.states.length →
        (go fsm0 s [35] = none ∨ go fsm0 s [35] = some poundStateId ∨
         go fsm0 s [35] = some hashFromEmojiId ∨
         go fsm0 s [35] = some hashFromJoinerId) := by decide
    exact hb sid h
  · exact Or.inl (go_oob fsm0 sid [35] (by omega))

theorem scanSpec_emoji_no_hash :
    ∀ (rest : List JChar) (sid k la : Nat),
    scanSpec fsm0 sid rest = some (k, la) →
    (fsm0.getState la).t = some "EMOJI" →
    ∀ c ∈ rest.take k, c ≠ [35] := by
  intro rest
  induction rest with
  | nil => intro sid k la hs; cases hs
  | cons c r ih =>
      intro sid k la hs htag x hx
      cases hgo : go fsm0 sid c with
      | none => simp only [scanSpec, hgo] at hs; cases hs
      | some st' =>
          simp only [scanSpec, hgo] at hs
          cases htail : scanSpec fsm0 st' r with
          | some p =>
              obtain ⟨k', la'⟩ := p
              rw [htail] at hs
              simp only [Option.some.injEq, Prod.mk.injEq] at hs
              obtain ⟨rfl, rfl⟩ := hs
              rw [List.take_succ_cons] at hx
              rcases List.mem_cons.mp hx with rfl | hx
              · intro h35
                subst h35
                rcases go_hash_cases sid with hnone | hp | hd1 | hd2
                · rw [hgo] at hnone; cases hnone
                · rw [hgo] at hp
                  injection hp with he
                  subst he
                  rw [scanSpec_none_of_go_none fsm0 _ pound_go_none r] at htail
                  cases htail
                · rw [hgo] at hd1
                  injection hd1 with he
                  subst he
                  rw [scanSpec_none_of_go_none fsm0 _ hashE_go_none r] at htail
                  cases htail
                · rw [hgo] at hd2
                  injection hd2 with he
                  subst he
                  rw [scanSpec_none_of_go_none fsm0 _ hashJ_go_none r] at htail
                  cases htail
              · exact ih st' k' la' htail htag x hx
          | none =>
              rw [htail] at hs
              by_cases hacc : acceptsB fsm0 st' = true
              · rw [if_pos hacc] at hs
                simp only [Option.some.injEq, Prod.mk.injEq] at hs
                obtain ⟨rfl, rfl⟩ := hs
                rw [List.take_succ_cons, List.take_zero] at hx
                rcases List.mem_cons.mp hx with rfl | hx
                · intro h35
                  subst h35
                  rcases go_hash_cases sid with hnone | hp | hd1 | hd2
                  · rw [hgo] at hnone; cases hnone
                  · rw [hgo] at hp
                    injection hp with he
                    subst he
                    have : (fsm0.getState poundStateId).t = some "POUND" := by decide
                    rw [this] at htag
                    exact absurd htag (by decide)
                  · rw [hgo] at hd1
                    injection hd1 with he
                    subst he
                    have : acceptsB fsm0 hashFromEmojiId = false := by decide
                    rw [this] at hacc
                    cases hacc
                  · rw [hgo] at hd2
                    injection hd2 with he
                    subst he
                    have : acceptsB fsm0 hashFromJoinerId = false := by decide
                    rw [this] at hacc
                    cases hacc
                · cases hx
              · rw [if_neg hacc] at hs; cases hs

theorem tokChain_emoji (str : Str) (it : List JChar)
    (hflat : it.flatten = lowerAscii str)
    (hwf : ∀ c ∈ it, goodChar c)
    {cc cursor : Nat} {toks : List Tok}
    (h : TokChain fsm0 0 str it cc cursor toks) :
    cursor = unitLen (it.take cc) →
    ∀ tok ∈ toks, tok.t = "EMOJI" → ¬ (35 : Nat) ∈ tok.v := by
  induction h with
  | nil => intro hc tok ht; cases ht
  | @cons cc cursor k la toks hcc hscan hrest ih =>
      intro hc tok ht
      rcases List.mem_cons.mp ht with rfl | ht
      · intro htagEq h35
        have htla : (fsm0.getState la).t = some "EMOJI" := by
          have hT : tagOfD fsm0 la = "EMOJI" := htagEq
          rw [tagOfD] at hT
          cases hX : (fsm0.getState la).t with
          | none =>
              rw [hX, Option.getD_none] at hT
              exact absurd hT (by decide)
          | some s =>
              rw [hX, Option.getD_some] at hT
              rw [hT]
        have hno := scanSpec_emoji_no_hash (it.drop cc) 0 k la hscan htla
        have h35' : (35 : Nat) ∈
            (strSlice str cursor (cursor + unitLen ((it.drop cc).take k))).map lowerUnit := by
          have hm := List.mem_map_of_mem lowerUnit h35
          rw [show lowerUnit 35 = 35 from by norm_num [lowerUnit]] at hm
          exact hm
        rw [strSlice_map] at h35'
        rw [show List.map lowerUnit str = lowerAscii str from rfl, ← hflat] at h35'
        have hc2 : cursor + unitLen ((it.drop cc).take k) = unitLen (it.take (cc + k)) := by
          rw [hc, List.take_add, unitLen_append]
        rw [hc2, hc, flatten_strSlice] at h35'
        obtain ⟨cel, hcelmem, h35c⟩ := List.mem_flatten.mp h35'
        have hcel_it : cel ∈ it :=
          List.drop_subset cc it (List.take_subset k (it.drop cc) hcelmem)
        have := goodChar_mem_hash cel (hwf cel hcel_it) h35c
        exact hno cel hcelmem this
      · exact ih (by rw [hc, List.take_add, unitLen_append]) tok ht

/-- Claim C9: in the character FSM, the transition on `#` from the Emoji
state and from the EmojiJoiner state each lead to a non-accepting state
with no outgoing transitions, so a `#` adjacent to an emoji run is never
included in an EMOJI token and is instead emitted as a separate POUND
token. -/
theorem claim_C9 :
    go fsm0 emojiStateId [35] = some hashFromEmojiId ∧
    (fsm0.getState hashFromEmojiId).t = none ∧
    (fsm0.getState hashFromEmojiId).j = [] ∧
    (fsm0.getState hashFromEmojiId).jr = [] ∧
    (fsm0.getState hashFromEmojiId).jd = none ∧
    go fsm0 emojiJoinerStateId [35] = some hashFromJoinerId ∧
    (fsm0.getState hashFromJoinerId).t = none ∧
    (fsm0.getState hashFromJoinerId).j = [] ∧
    (fsm0.getState hashFromJoinerId).jr = [] ∧
    (fsm0.getState hashFromJoinerId).jd = none ∧
    (∀ (s : Str) (toks : List Tok) (tok : Tok), run fsm0 0 s = some toks →
      tok ∈ toks → tok.t = "EMOJI" → ¬ (35 : Nat) ∈ tok.v) ∧
    run fsm0 0 [0xD83D, 0xDE00, 35] =
      some [⟨"EMOJI", [0xD83D, 0xDE00], 0, 2⟩, ⟨"POUND", [35], 2, 3⟩] := by
  refine ⟨by decide, by decide, by decide, by decide, by decide, by decide, by decide,
    by decide, by decide, by decide, ?_, by decide⟩
  intro s toks tok hrun htok htag
  obtain ⟨toks', hrun', hchain⟩ := run_fsm0_chain s
  rw [hrun'] at hrun
  injection hrun with he
  subst he
  exact tokChain_emoji s _ (stringToArray_flatten (lowerAscii s))
    (stringToArray_good (lowerAscii s)) hchain rfl tok htok htag

/-- Witness for the universal part of C9, at the input `😀#`. -/
theorem claim_C9_witness :
    ¬ (35 : Nat) ∈ (⟨"EMOJI", [0xD83D, 0xDE00], 0, 2⟩ : Tok).v :=
  claim_C9.2.2.2.2.2.2.2.2.2.2.1 [0xD83D, 0xDE00, 35]
    [⟨"EMOJI", [0xD83D, 0xDE00], 0, 2⟩, ⟨"POUND", [35], 2, 3⟩]
    ⟨"EMOJI", [0xD83D, 0xDE00], 0, 2⟩
    (by decide) (by decide) rfl

/-- Counterexample to C4 as stated: `co` and `com` are both registered
TLDs, and the intermediate node spelling `co` on the path of `com`
carries tag `TLD`, not `WORD`. -/
theorem claim_C4_counterexample :
    (encodeStr "com" ∈ tlds0) ∧
    ((literalPath fsm0 0 (encodeStr "co")).map (fun n => (fsm0.getState n).t) =
      some (some "TLD")) ∧
    ((some (some "TLD") : Option (Option String)) ≠ some (some "WORD")) := by
  refine ⟨by decide, by decide, by decide⟩

/-- Claim C4 (amended): for every registered TLD `w`, the literal path
spelling `w` ends in a node accepting `TLD` (with tag `TLD` registered in
the `tld` and `ascii` groups) that carries the class transitions
ASCII_LETTER to Word and DIGIT to Asciinumeric; every intermediate node
along the path is accepting with those same class transitions, with tag
`WORD` unless the prefix it spells is itself a registered TLD, in which
case it keeps tag `TLD`. -/
theorem claim_C4 :
    ("tld" ∈ tagGroups fsm0 "TLD") ∧ ("ascii" ∈ tagGroups fsm0 "TLD") ∧
    ∀ w ∈ tlds0,
      ((literalPath fsm0 0 w).map
          (fun n => ((fsm0.getState n).t, (fsm0.getState n).jr)) =
        some (some "TLD",
          [(CharClass.ASCII_LETTER, some wordStateId),
           (CharClass.DIGIT, some asciinumericStateId)])) ∧
      ∀ i ∈ (List.range w.length).drop 1,
        ((literalPath fsm0 0 (w.take i)).map
            (fun n => ((fsm0.getState n).t, (fsm0.getState n).jr)) =
          some ((if w.take i ∈ tlds0 then some "TLD" else some "WORD"),
            [(CharClass.ASCII_LETTER, some wordStateId),
             (CharClass.DIGIT, some asciinumericStateId)])) := by
  refine ⟨by decide, by decide, by decide⟩

/-- Witness for C4 at the TLD `com` and its intermediate prefix `co`. -/
theorem claim_C4_witness :
    (literalPath fsm0 0 ((encodeStr "com").take 2)).map
        (fun n => ((fsm0.getState n).t, (fsm0.getState n).jr)) =
      some ((if (encodeStr "com").take 2 ∈ tlds0 then some "TLD" else some "WORD"),
        [(CharClass.ASCII_LETTER, some wordStateId),
         (CharClass.DIGIT, some asciinumericStateId)]) :=
  (claim_C4.2.2 (encodeStr "com") (by decide)).2 2 (by decide)

theorem lexLt_asymm : ∀ a b : Str, lexLt a b = true → lexLt b a = false := by
  intro a
  induction a with
  | nil =>
      intro b h
      cases b with
      | nil => simp [lexLt] at h
      | cons y ys => rfl
  | cons x xs ih =>
      intro b h
      cases b with
      | nil => simp [lexLt] at h
      | cons y ys =>
          rw [lexLt] at h ⊢
          by_cases h1 : x < y
          · rw [if_neg (by omega), if_pos h1]
          · rw [if_neg h1] at h
            by_cases h2 : y < x
            · rw [if_pos h2] at h
              cases h
            · rw [if_neg h2] at h
              rw [if_neg h2, if_neg h1]
              exact ih ys h

theorem lexLt_connex : ∀ a b : Str, lexLt a b = false → lexLt b a = false → a = b := by
  intro a
  induction a with
  | nil =>
      intro b h1 h2
      cases b with
      | nil => rfl
      | cons y ys => simp [lexLt] at h1
  | cons x xs ih =>
      intro b h1 h2
      cases b with
      | nil => simp [lexLt] at h2
      | cons y ys =>
          rw [lexLt] at h1 h2
          by_cases hxy : x < y
          · rw [if_pos hxy] at h1
            cases h1
          · by_cases hyx : y < x
            · rw [if_pos hyx] at h2
              cases h2
            · rw [if_neg hxy, if_neg hyx] at h1
              rw [if_neg hyx, if_neg hxy] at h2
              have hx : x = y := by omega
              rw [hx, ih ys h1 h2]

theorem lexLt_trans : ∀ a b c : Str,
    lexLt a b = true → lexLt b c = true → lexLt a c = true := by
  intro a
  induction a with
  | nil =>
      intro b c h1 h2
      cases b with
      | nil => simp [lexLt] at h1
      | cons y ys =>
          cases c with
          | nil => simp [lexLt] at h2
          | cons z zs => rfl
  | cons x xs ih =>
      intro b c h1 h2
      cases b with
      | nil => simp [lexLt] at h1
      | cons y ys =>
          cases c with
          | nil => simp [lexLt] at h2
          | cons z zs =>
              rw [lexLt] at h1 h2 ⊢
              by_cases hxy : x < y
              · by_cases hyz : y < z
                · rw [if_pos (by omega)]
                · rw [if_neg hyz] at h2
                  by_cases hzy : z < y
                  · rw [if_pos hzy] at h2
                    cases h2
                  · rw [if_pos (by omega)]
              · rw [if_neg hxy] at h1
                by_cases hyx : y < x
                · rw [if_pos hyx] at h1
                  cases h1
                · rw [if_neg hyx] at h1
                  by_cases hyz : y < z
                  · rw [if_pos (by omega)]
                  · rw [if_neg hyz] at h2
                    by_cases hzy : z < y
                    · rw [if_pos hzy] at h2
                      cases h2
                    · rw [if_neg hzy] at h2
                      rw [if_neg (by omega), if_neg (by omega)]
                      exact ih ys zs h1 h2

theorem mem_sinsert (x z : String × Bool) :
    ∀ l, z ∈ sinsert x l → z = x ∨ z ∈ l := by
  intro l
  induction l with
  | nil =>
      intro h
      rw [sinsert, List.mem_singleton] at h
      exact Or.inl h
  | cons y ys ih =>
      intro h
      rw [sinsert] at h
      by_cases hc : lexLt (encodeStr y.1) (encodeStr x.1) = true
      · rw [if_pos hc] at h
        rcases List.mem_cons.mp h with rfl | h
        · exact Or.inr (List.mem_cons_self _ _)
        · rcases ih h with h' | h'
          · exact Or.inl h'
          · exact Or.inr (List.mem_cons_of_mem _ h')
      · rw [if_neg hc] at h
        rcases List.mem_cons.mp h with rfl | h
        · exact Or.inl rfl
        · exact Or.inr h

theorem sinsert_pairwise (x : String × Bool) :
    ∀ l, List.Pairwise (fun p q : String × Bool =>
        lexLt (encodeStr q.1) (encodeStr p.1) = false) l →
    List.Pairwise (fun p q : String × Bool =>
        lexLt (encodeStr q.1) (encodeStr p.1) = false) (sinsert x l) := by
  intro l
  induction l with
  | nil => intro _; exact List.pairwise_singleton _ _
  | cons y ys ih =>
      intro h
      rw [List.pairwise_cons] at h
      obtain ⟨hy, hys⟩ := h
      rw [sinsert]
      by_cases hc : lexLt (encodeStr y.1) (encodeStr x.1) = true
      · rw [if_pos hc, List.pairwise_cons]
        refine ⟨fun z hz => ?_, ih hys⟩
        rcases mem_sinsert x z ys hz with rfl | hz
        · exact lexLt_asymm _ _ hc
        · exact hy z hz
      · rw [if_neg hc, List.pairwise_cons]
        have hcf : lexLt (encodeStr y.1) (encodeStr x.1) = false :=
          Bool.eq_false_iff.mpr hc
        refine ⟨fun z hz => ?_, List.Pairwise.cons hy hys⟩
        rcases List.mem_cons.mp hz with rfl | hz
        · exact hcf
        · have hzy := hy z hz
          cases hzx : lexLt (encodeStr z.1) (encodeStr x.1) with
          | false => rfl
          | true =>
              exfalso
              cases hyz : lexLt (encodeStr y.1) (encodeStr z.1) with
              | true =>
                  have := lexLt_trans _ _ _ hyz hzx
                  rw [this] at hcf
                  cases hcf
              | false =>
                  have heq := lexLt_connex _ _ hyz hzy
                  rw [← heq] at hzx
                  rw [hzx] at hcf
                  cases hcf

theorem schemeSort_pairwise (l : List (String × Bool)) :
    List.Pairwise (fun p q : String × Bool =>
        lexLt (encodeStr q.1) (encodeStr p.1) = false) (schemeSort l) := by
  induction l with
  | nil => exact List.Pairwise.nil
  | cons x xs ih => exact sinsert_pairwise x (schemeSort xs) ih

theorem schemeSort_of_pairwise :
    ∀ l, List.Pairwise (fun p q : String × Bool =>
        lexLt (encodeStr q.1) (encodeStr p.1) = false) l →
    schemeSort l = l := by
  intro l
  induction l with
  | nil => intro _; rfl
  | cons y ys ih =>
      intro h
      rw [List.pairwise_cons] at h
      obtain ⟨hy, hys⟩ := h
      rw [schemeSort, ih hys]
      cases ys with
      | nil => rfl
      | cons z zs =>
          rw [sinsert, if_neg (by rw [hy z (List.mem_cons_self _ _)]; exact Bool.false_ne_true)]

theorem schemeSort_idem (l : List (String × Bool)) :
    schemeSort (schemeSort l) = schemeSort l :=
  schemeSort_of_pairwise _ (schemeSort_pairwise l)

theorem not_any_eq_all_not (l : List Nat) (p : Nat → Bool) :
    (!l.any p) = l.all (fun u => !p u) := by
  induction l with
  | nil => rfl
  | cons u rest ih =>
      rw [List.any_cons, List.all_cons, Bool.not_or, ih]

theorem init_sorted (cs : List (String × Bool)) :
    init tlds0 utlds0 cs = init tlds0 utlds0 (schemeSort cs) := by
  rw [init, init, schemeSort_idem]

theorem schemeFlags_eq (sch : Str) (opt : Bool) :
    schemeFlags sch opt = claimSchemeFlags sch opt := by
  rw [schemeFlags, claimSchemeFlags]
  have h1 : classTestStr .ASCII_LETTER sch = sch.any isAsciiLetterU := rfl
  have h2 : classTestStr .DIGIT sch = sch.any isDigitU := rfl
  rw [h1, h2]
  rw [show (sch.all fun u => !isAsciiLetterU u) = !sch.any isAsciiLetterU from
    (not_any_eq_all_not sch isAsciiLetterU).symm]
  rw [show (sch.any fun u => isDigitU u) = sch.any isDigitU from rfl]
  by_cases hd : sch.contains 45 = true
  · rw [if_pos hd, if_pos hd]
    cases opt <;> rfl
  · rw [if_neg hd, if_neg hd]
    by_cases hl : (!sch.any isAsciiLetterU) = true
    · rw [if_pos hl, if_pos hl]
      cases opt <;> rfl
    · rw [if_neg hl, if_neg hl]
      by_cases hg : sch.any isDigitU = true
      · rw [if_pos hg, if_pos hg]
        cases opt <;> rfl
      · rw [if_neg hg, if_neg hg]
        cases opt <;> rfl

/-- Claim C5: custom schemes are registered in lexicographically sorted
order (`init` gives the same machine on a pre-sorted list), and each
scheme receives exactly one shape flag — `domain` if the scheme contains
a hyphen, else `numeric` if it contains no ASCII letter, else
`asciinumeric` if it contains a digit, else `ascii` — plus the base flag
`scheme` when `://` is optional and `slashscheme` otherwise, as checked
end-to-end on a demo registration exercising all four shapes. -/
theorem claim_C5 :
    (∀ cs : List (String × Bool),
      init tlds0 utlds0 cs = init tlds0 utlds0 (schemeSort cs)) ∧
    (∀ (sch : Str) (opt : Bool), schemeFlags sch opt = claimSchemeFlags sch opt) ∧
    tagGroups fsmDemo "steam" = ["ascii", "scheme"] ∧
    tagGroups fsmDemo "a-b" = ["slashscheme", "domain"] ∧
    tagGroups fsmDemo "42" = ["numeric", "scheme"] ∧
    tagGroups fsmDemo "s3" = ["asciinumeric", "slashscheme"] :=
  ⟨init_sorted, schemeFlags_eq, by decide, by decide, by decide, by decide⟩

/-- Witness for C8 at a surrogate pair inside `😀a`. -/
theorem claim_C8_witness :
    ((([0xD83D, 0xDE00] : JChar).length = 1 ∨ ([0xD83D, 0xDE00] : JChar).length = 2) ∧
      (([0xD83D, 0xDE00] : JChar).length = 2 ↔ ∃ h l, ([0xD83D, 0xDE00] : JChar) = [h, l] ∧
        0xD800 ≤ h ∧ h ≤ 0xDBFF ∧ 0xDC00 ≤ l ∧ l ≤ 0xDFFF)) :=
  (claim_C8 [0xD83D, 0xDE00, 97]).2 [0xD83D, 0xDE00] (by decide)

/-- Witness for C10 on the concrete input `a!`. -/
theorem claim_C10_witness :
    (∃ st', go fsm0 0 [97] = some st' ∧ acceptsB fsm0 st' = true) ∧
    (∃ toks, run fsm0 0 [97, 33] = some toks ∧ ∀ tok ∈ toks, tok.s < tok.e) :=
  ⟨claim_C10.1 [97], claim_C10.2 [97, 33]⟩
